import Mathlib

/-!
Verification of the cfgman layered-configuration library.

We shallowly embed the generic-tree data model and the operations of
`configman/__init__.py` (layer merging, traversal, pruning), of
`configman/loaders/env.py` (environment fragment source), and of the
load orchestrator, and prove or refute the specified properties.

Python mappings are embedded as association lists (`Entries`), preserving
insertion order exactly as CPython dicts do; the predicate `wfE` states the
dict invariant that keys are unique.  Python `==` on trees (order-insensitive
on mapping keys) is embedded as the boolean relation `nequiv`/`dequiv`.
-/

namespace Cfgman

/-- Scalar payloads of a generic tree (strings / numbers / booleans / null). -/
inductive Scal : Type where
  | str (s : String)
  | int (n : Int)
  | bool (b : Bool)
  | null
deriving DecidableEq, Repr

/-- A generic-tree node: scalar, the `MISSING` absence marker (from
`dataclasses.MISSING`), an ordered sequence, or a string-keyed mapping
(association list in insertion order, like a CPython dict). -/
inductive Node : Type where
  | scalar (s : Scal)
  | missing
  | list (xs : List Node)
  | dict (es : List (String × Node))
deriving Repr

/-- The entry list of a mapping node: `dict[str, Any]` in the source. -/
abbrev Entries := List (String × Node)

/-- `d.get(k)` on a CPython dict: first (only, when keys are unique) value
bound to `k`. -/
def alistGet (es : Entries) (k : String) : Option Node :=
  match es with
  | [] => none
  | (k', v) :: rest => if k' = k then some v else alistGet rest k

/-- `d[k] = v` on a CPython dict: replace in place when the key is present,
append at the end otherwise. -/
def alistSet (es : Entries) (k : String) (v : Node) : Entries :=
  match es with
  | [] => [(k, v)]
  | (k', v') :: rest => if k' = k then (k, v) :: rest else (k', v') :: alistSet rest k v

/-- A node path: non-empty list of mapping keys, leaf key last
(`NodePath = list[str]` in the source). -/
abbrev NodePath := List String

/-- Modelled from the spec: `configman/tree.py` is not among the source files.
Spec §4.1 describes `ensure_path_prefix(tree, path)`: for every prefix segment
in order, look up the key in the current mapping; if absent or not a mapping,
create a fresh empty mapping and bind it there (overwriting a non-mapping value
is explicitly allowed); descend; return the mapping holding the leaf key plus
the leaf key.  `eppTree` below is the mutated tree after this call (the leaf
key itself, `path`'s last segment, is never materialized). -/
def subOf (t : Entries) (k : String) : Entries :=
  match alistGet t k with
  | some (.dict es) => es
  | _ => []

/-- The tree after `ensure_path_prefix(tree, path)` (see `subOf`): each prefix
segment's existing mapping is descended into, anything else is replaced by a
fresh empty mapping. -/
def eppTree (t : Entries) (path : NodePath) : Entries :=
  match path with
  | [] => t
  | [_] => t
  | k :: rest => alistSet t k (.dict (eppTree (subOf t k) rest))

/-- Value stored at a dotted path: walk mapping keys left to right; `none` when
a segment is absent or an intermediate value is not a mapping.  For the parent
mapping returned by `ensure_path_prefix`, `getPath (eppTree t p) p` is exactly
the source's `node.get(key, default)` read of the leaf key. -/
def getPath (t : Entries) (path : NodePath) : Option Node :=
  match path with
  | [] => none
  | [k] => alistGet t k
  | k :: rest =>
      match alistGet t k with
      | some (.dict es) => getPath es rest
      | _ => none

/-- `node[key] = v` through the parent mapping returned by
`ensure_path_prefix`: assumes the prefix is already materialized as mappings
(returns the tree unchanged otherwise, a case unreachable after `eppTree`). -/
def setLeaf (t : Entries) (path : NodePath) (v : Node) : Entries :=
  match path with
  | [] => t
  | [k] => alistSet t k v
  | k :: rest =>
      match alistGet t k with
      | some (.dict es) => alistSet t k (.dict (setLeaf es rest v))
      | _ => t

/-- The exact `TypeError` message raised by `_merge_node_path`. -/
def conflictMsg (path : NodePath) : String :=
  "Setting " ++ String.intercalate "." path ++ " has mixed type 'list' and non-'list'."

/-- `_merge_node_path(tree, path, new_value)`: call `ensure_path_prefix`
(materializing the prefix), then: no leaf write when the value is `MISSING`;
for a list value, fetch the leaf (absent or `MISSING` becomes a fresh `[]`),
raise the type-conflict `TypeError` when the current value is not a list,
otherwise extend it; for any other value, overwrite the leaf unconditionally. -/
def mergeNodePath (t : Entries) (path : NodePath) (v : Node) : Except String Entries :=
  let t' := eppTree t path
  match v with
  | .missing => .ok t'
  | .list xs =>
      match getPath t' path with
      | some (.list ys) => .ok (setLeaf t' path (.list (ys ++ xs)))
      | some .missing => .ok (setLeaf t' path (.list xs))
      | none => .ok (setLeaf t' path (.list xs))
      | some _ => .error (conflictMsg path)
  | v => .ok (setLeaf t' path v)

/-- `_visit_dict(root)`: yield every `(path, value)` with a non-dict value, in
insertion order, recursing into dict values. -/
def visitDict (root : Entries) : List (NodePath × Node) :=
  match root with
  | [] => []
  | (k, v) :: rest =>
      (match v with
       | .dict es => (visitDict es).map (fun pv => (k :: pv.1, pv.2))
       | _ => [([k], v)]) ++ visitDict rest
termination_by sizeOf root
decreasing_by all_goals (simp <;> omega)

/-- `_prune_missing_inplace(d)`: delete every entry whose value is `MISSING`,
recursing into non-empty mapping values first; entries inside sequence values
are never visited. -/
def pruneMissing (d : Entries) : Entries :=
  match d with
  | [] => []
  | (k, v) :: rest =>
      match v with
      | .missing => pruneMissing rest
      | .dict [] => (k, .dict []) :: pruneMissing rest
      | .dict (e :: es) => (k, .dict (pruneMissing (e :: es))) :: pruneMissing rest
      | v => (k, v) :: pruneMissing rest
termination_by sizeOf d
decreasing_by all_goals (simp <;> omega)

/-- Modelled from the spec: `configman.tree.copy` is not among the source
files; spec §4.2 starts the accumulator from a deep copy of the first layer so
it is exclusively owned.  On immutable values a deep copy is the identity. -/
def copy (t : Entries) : Entries := t

/-- The inner loop of `_merge_layers` for one later layer: apply every
`(path, value)` pair of `_visit_dict(layer)` to the accumulator in order. -/
def applyLayer (current : Entries) (layer : Entries) : Except String Entries :=
  (visitDict layer).foldlM (fun t pv => mergeNodePath t pv.1 pv.2) current

/-- `_merge_layers(*layers)`: unpack head and tail (a `ValueError` for zero
layers), fold every later layer over a copy of the head, then run the final
pruning sweep. -/
def merge_layers (layers : List Entries) : Except String Entries :=
  match layers with
  | [] => .error "not enough values to unpack (expected at least 1, got 0)"
  | head :: tail => do
      let current ← tail.foldlM applyLayer (copy head)
      pure (pruneMissing current)

/-- `p` is a prefix of `q` (as key paths), `p = q` included. -/
def pathLe : NodePath → NodePath → Bool
  | [], _ => true
  | _ :: _, [] => false
  | a :: as, b :: bs => a == b && pathLe as bs

/-- Two paths diverge: neither is a prefix of the other. -/
def pathApart (p q : NodePath) : Bool :=
  !pathLe p q && !pathLe q p

/-- `p` is a strict prefix of `q`. -/
def pathLt (p q : NodePath) : Bool :=
  pathLe p q && !pathLe q p

/-- Key membership in a mapping's entry list. -/
def keyMemB (es : Entries) (k : String) : Bool :=
  match es with
  | [] => false
  | (k', _) :: rest => k' == k || keyMemB rest k

mutual

/-- The CPython dict invariant on a node: keys unique, recursively through
mapping values (sequence elements are never looked up by key). -/
def wfV : Node → Bool
  | .dict es => wfE es
  | _ => true
termination_by n => sizeOf n
decreasing_by all_goals (simp <;> omega)

/-- The CPython dict invariant on an entry list: keys unique, values well
formed. -/
def wfE : Entries → Bool
  | [] => true
  | (k, v) :: rest => !(keyMemB rest k) && wfV v && wfE rest
termination_by es => sizeOf es
decreasing_by all_goals (simp <;> omega)

end


mutual

/-- Python `==` on generic-tree nodes: scalars and the marker compare by
identity of content, sequences elementwise, mappings by key set and pointwise
equal values regardless of insertion order (CPython dict equality). -/
def nequiv : Node → Node → Bool
  | .scalar a, .scalar b => a == b
  | .missing, .missing => true
  | .list xs, .list ys => lequiv xs ys
  | .dict a, .dict b => dequivOn (a.map Prod.fst ++ b.map Prod.fst) a b
  | _, _ => false
termination_by x y => (sizeOf x + sizeOf y, 0)
decreasing_by all_goals (apply Prod.Lex.left; simp <;> omega)

/-- Python `==` on lists of nodes: elementwise. -/
def lequiv : List Node → List Node → Bool
  | [], [] => true
  | x :: xs, y :: ys => nequiv x y && lequiv xs ys
  | _, _ => false
termination_by xs ys => (sizeOf xs + sizeOf ys, 0)
decreasing_by all_goals (apply Prod.Lex.left; simp <;> omega)

/-- Python `==` on optional nodes (absent vs. present never equal). -/
def onequiv : Option Node → Option Node → Bool
  | none, none => true
  | some x, some y => nequiv x y
  | _, _ => false
termination_by ox oy => (sizeOf ox + sizeOf oy, 0)
decreasing_by all_goals (apply Prod.Lex.left; simp <;> omega)

/-- Pointwise equality of two mappings over a list of keys. -/
def dequivOn : List String → Entries → Entries → Bool
  | [], _, _ => true
  | k :: ks, a, b => onequiv (alistGet a k) (alistGet b k) && dequivOn ks a b
termination_by ks a b => (sizeOf a + sizeOf b, ks.length)
decreasing_by
  all_goals
    have hsz : ∀ (es : Entries) (k2 : String), sizeOf (alistGet es k2) ≤ sizeOf es := by
      intro es k2
      induction es with
      | nil => simp [alistGet]
      | cons e rest ih =>
        obtain ⟨k3, v3⟩ := e
        by_cases hx : k3 = k2
        · simp [alistGet, hx]
          omega
        · simp [alistGet, hx]
          omega
  · have h1 := hsz a k
    have h2 := hsz b k
    rcases Nat.lt_or_ge (sizeOf (alistGet a k) + sizeOf (alistGet b k))
      (sizeOf a + sizeOf b) with hlt | hge
    · exact Prod.Lex.left _ _ hlt
    · have heq : sizeOf (alistGet a k) + sizeOf (alistGet b k) = sizeOf a + sizeOf b := by
        omega
      rw [heq]
      exact Prod.Lex.right _ (by simp)
  · exact Prod.Lex.right _ (by simp)

end

/-- Python `==` on mapping entry lists. -/
def dequiv (a b : Entries) : Bool :=
  dequivOn (a.map Prod.fst ++ b.map Prod.fst) a b

/-- The effect of the pruning sweep on a single lookup: a stored `MISSING`
disappears, a mapping is pruned recursively, anything else is untouched. -/
def pruneOpt : Option Node → Option Node
  | some .missing => none
  | some (.dict es) => some (.dict (pruneMissing es))
  | o => o

/-- Two accumulators are interchangeable for the rest of a merge: their pruned
trees are Python-`==`. -/
def RelP (a b : Entries) : Prop :=
  dequiv (pruneMissing a) (pruneMissing b) = true

/-- Relates two merge results: both fail with the same message, or both
succeed with Python-`==` trees under `R`. -/
def exRel (R : Entries → Entries → Prop) :
    Except String Entries → Except String Entries → Prop
  | .ok a, .ok b => R a b
  | .error e, .error f => e = f
  | _, _ => False

/-- A typed configuration value as produced by the external
`apischema.deserialize` collaborator: a primitive, a dataclass instance of a
(numbered) class, a sequence, a mapping, or a class object used as a value
(`typeref`, which the visit never descends into). -/
inductive CVal : Type where
  | prim (s : Scal)
  | inst (ty : Nat) (fields : List (String × CVal))
  | listv (xs : List CVal)
  | mapv (es : List (String × CVal))
  | typeref (ty : Nat)
deriving Repr

/-- Runtime type of a dataclass instance (unused for other values). -/
def tyOf : CVal → Nat
  | .inst ty _ => ty
  | _ => 0

/-- The `assert` in `load_config`'s registration loop:
`is_dataclass(node) and not isinstance(node, type) and type(node) in register`. -/
def isRegInstB (reg : List Nat) : CVal → Bool
  | .inst ty _ => reg.contains ty
  | _ => false

mutual

/-- `_visit_config(obj)`: yield every dataclass instance whose runtime type is
registered, in visit order; recurse into dataclass fields, mapping values and
sequence elements; class objects and strings/bytes are never descended into
(strings are `prim` values here). -/
def visitConfig (reg : List Nat) : CVal → List CVal
  | .typeref _ => []
  | .inst ty fields =>
      (if reg.contains ty then [CVal.inst ty fields] else []) ++
        visitConfigFields reg fields
  | .mapv es => visitConfigFields reg es
  | .prim _ => []
  | .listv xs => visitConfigList reg xs
termination_by c => sizeOf c
decreasing_by all_goals (simp <;> omega)

/-- Visit of dataclass fields / mapping values, in declaration order. -/
def visitConfigFields (reg : List Nat) : List (String × CVal) → List CVal
  | [] => []
  | (_, c) :: rest => visitConfig reg c ++ visitConfigFields reg rest
termination_by fs => sizeOf fs
decreasing_by all_goals (simp <;> omega)

/-- Visit of sequence elements, in order. -/
def visitConfigList (reg : List Nat) : List CVal → List CVal
  | [] => []
  | x :: rest => visitConfig reg x ++ visitConfigList reg rest
termination_by xs => sizeOf xs
decreasing_by all_goals (simp <;> omega)

end

/-- `defaults[cls]` lookup in the Default Registry. -/
def defGet (d : List (Nat × CVal)) (ty : Nat) : Option CVal :=
  match d with
  | [] => none
  | (t, v) :: rest => if t = ty then some v else defGet rest ty

/-- `defaults[type(node)] = node`: replace in place or append. -/
def defSet (d : List (Nat × CVal)) (ty : Nat) (v : CVal) : List (Nat × CVal) :=
  match d with
  | [] => [(ty, v)]
  | (t, v0) :: rest => if t = ty then (ty, v) :: rest else (t, v0) :: defSet rest ty v

/-- The registration loop of `load_config`: for each visited node, assert it
is a registered dataclass instance and record it as the default for its type.
Returns the assertion failure (if any) together with the registry state at
that moment. -/
def applyDefaults (reg : List Nat) (dfl : List (Nat × CVal)) :
    List CVal → Option String × List (Nat × CVal)
  | [] => (none, dfl)
  | n :: rest =>
      if isRegInstB reg n then applyDefaults reg (defSet dfl (tyOf n) n) rest
      else (some "AssertionError", dfl)

/-- One positional argument of `load_config` after the callable stage: either
a literal mapping, or the mapping / list of mappings a loader callable
returned (loader callables are pure functions of the schema, so each is
modelled by its returned value; `load_config` extends the layer list for an
iterable non-mapping result and appends otherwise). -/
inductive Arg : Type where
  | one (d : Entries)
  | many (ds : List Entries)

/-- The flattening loop of `load_config`: lists of fragments are spliced in
place, single mappings appended, order preserved. -/
def flattenArgs : List Arg → List Entries
  | [] => []
  | .one d :: rest => d :: flattenArgs rest
  | .many ds :: rest => ds ++ flattenArgs rest

/-- `load_config(cls, *args)` with the external deserializer `des` passed as a
parameter and the module-level mutable state (`register` as `reg`, `defaults`
as `dfl`) threaded explicitly; the second component is the `defaults` mapping
after the call. -/
def load_config (reg : List Nat) (dfl : List (Nat × CVal))
    (des : Nat → Entries → Except String CVal) (cls : Nat) (args : List Arg) :
    Except String CVal × List (Nat × CVal) :=
  if reg.contains cls then
    match merge_layers (flattenArgs args) with
    | .error e => (.error e, dfl)
    | .ok merged =>
        match des cls merged with
        | .error e => (.error e, dfl)
        | .ok config =>
            match applyDefaults reg dfl (visitConfig reg config) with
            | (some e, dfl2) => (.error e, dfl2)
            | (none, dfl2) => (.ok config, dfl2)
  else (.error "First argument of load_config must be a configclass.", dfl)

/-- `get_default_config(cls)`: `defaults[cls]`, a `KeyError` when the class
was never loaded. -/
def get_default_config (dfl : List (Nat × CVal)) (cls : Nat) : Except String CVal :=
  match defGet dfl cls with
  | some v => .ok v
  | none => .error "KeyError"

/-- String-valued dict lookup (for environment mappings). -/
def strGet (es : List (String × String)) (k : String) : Option String :=
  match es with
  | [] => none
  | (k2, v) :: rest => if k2 = k then some v else strGet rest k

/-- String-valued dict write: replace in place or append, like CPython. -/
def strSet (es : List (String × String)) (k : String) (v : String) :
    List (String × String) :=
  match es with
  | [] => [(k, v)]
  | (k2, v0) :: rest => if k2 = k then (k, v) :: rest else (k2, v0) :: strSet rest k v

/-- Python `str.upper()` (ASCII), structurally over the character list. -/
def strUpper (s : String) : String :=
  String.mk (s.toList.map Char.toUpper)

/-- `{k.upper(): v for k, v in env.items()}` — a dict comprehension: first
occurrence keeps its position, a duplicate key keeps the last value. -/
def upperEnv (env : List (String × String)) : List (String × String) :=
  env.foldl (fun acc kv => strSet acc (strUpper kv.1) kv.2) []

/-- `{prefix + k.upper(): v for k, v in mapping.items()}`. -/
def prefixedMapping (pfx : String) (mapping : List (String × String)) :
    List (String × String) :=
  mapping.foldl (fun acc kv => strSet acc (pfx ++ strUpper kv.1) kv.2) []

/-- Python `str.split(".")` on the character list: split on every dot, empty
pieces kept, never returning an empty list. -/
def splitDotAux : List Char → List Char → List String
  | [], cur => [String.mk cur.reverse]
  | c :: rest, cur =>
      if c = '.' then String.mk cur.reverse :: splitDotAux rest []
      else splitDotAux rest (c :: cur)

/-- Python `nodepath.split(".")`. -/
def splitDot (s : String) : List String :=
  splitDotAux s.toList []

/-- `node, key = ensure_path_prefix(t, p); node[key] = v`. -/
def setAtPath (t : Entries) (p : NodePath) (v : Node) : Entries :=
  setLeaf (eppTree t p) p v

/-- Modelled from the spec: `configman.tree.envelop_subpath` is not among the
source files; spec §4.1: wrap a tree under a path by nesting it inside a chain
of single-key mappings, innermost holding the original tree. -/
def envelop_subpath (t : Entries) (path : List String) : Entries :=
  match path with
  | [] => t
  | k :: rest => [(k, Node.dict (envelop_subpath t rest))]

/-- `load_env` from `configman/loaders/env.py`: the environment is passed
explicitly (the source defaults to `os.environ`, an external input), the
deserializer is a parameter for the `validate=True` path, and a string
`subpath` is already split on `"."` (`splitDot`, pure plumbing in the source). -/
def load_env (cls : Option Nat) (mapping : List (String × String))
    (subpath : Option (List String)) (validate : Bool) (pfx : String)
    (env : List (String × String))
    (des : Nat → Entries → Except String CVal) : Except String Entries :=
  if validate = true ∧ cls = none then
    .error "Validation require `cls` being set."
  else
    let envU := upperEnv env
    let mappingP := prefixedMapping pfx mapping
    let result := mappingP.foldl (fun res vp =>
      match strGet envU vp.1 with
      | none => res
      | some v => setAtPath res (splitDot vp.2) (.scalar (.str v))) []
    let chk : Except String Unit :=
      if validate then
        match cls with
        | some c =>
            match des c result with
            | .ok _ => .ok ()
            | .error e => .error e
        | none => .error "Validation require `cls` being set."
      else .ok ()
    match chk with
    | .error e => .error e
    | .ok _ =>
        match subpath with
        | none => .ok result
        | some sp => .ok (envelop_subpath result sp)

theorem alistGet_set_self (es : Entries) (k : String) (v : Node) :
    alistGet (alistSet es k v) k = some v := by
  induction es with
  | nil => simp [alistGet, alistSet]
  | cons e rest ih =>
    obtain ⟨k', v'⟩ := e
    by_cases h : k' = k
    · simp [alistSet, h, alistGet]
    · simp [alistSet, h, alistGet, ih]

theorem alistGet_set_other (es : Entries) (k k' : String) (v : Node) (h : k' ≠ k) :
    alistGet (alistSet es k v) k' = alistGet es k' := by
  have h' : ¬(k = k') := fun e => h e.symm
  induction es with
  | nil => simp [alistSet, alistGet, h']
  | cons e rest ih =>
    obtain ⟨k₀, v₀⟩ := e
    by_cases h0 : k₀ = k
    · subst h0
      simp [alistSet, alistGet, h']
    · simp [alistSet, alistGet, h0, ih]

theorem keyMemB_false_get (es : Entries) (k : String) (h : keyMemB es k = false) :
    alistGet es k = none := by
  induction es with
  | nil => simp [alistGet]
  | cons e rest ih =>
    obtain ⟨k', v'⟩ := e
    simp [keyMemB] at h
    simp [alistGet, h.1, ih h.2]

theorem keyMemB_get_some (es : Entries) (k : String) (h : keyMemB es k = true) :
    ∃ v, alistGet es k = some v := by
  induction es with
  | nil => simp [keyMemB] at h
  | cons e rest ih =>
    obtain ⟨k', v'⟩ := e
    simp [keyMemB] at h
    by_cases hk : k' = k
    · exact ⟨v', by simp [alistGet, hk]⟩
    · obtain ⟨v, hv⟩ := ih (h.resolve_left hk)
      exact ⟨v, by simp [alistGet, hk, hv]⟩

theorem sizeOf_alistGet_le (es : Entries) (k : String) :
    sizeOf (alistGet es k) ≤ sizeOf es := by
  induction es with
  | nil => simp [alistGet]
  | cons e rest ih =>
    obtain ⟨k', v'⟩ := e
    by_cases h : k' = k
    · simp [alistGet, h]
      omega
    · simp [alistGet, h]
      omega

/-- Structural induction for `Node` through the nested lists. -/
theorem node_ind (P : Node → Prop)
    (hs : ∀ s, P (.scalar s)) (hm : P .missing)
    (hl : ∀ xs, (∀ x ∈ xs, P x) → P (.list xs))
    (hd : ∀ es, (∀ e ∈ es, P e.2) → P (.dict es)) : ∀ n, P n
  | .scalar s => hs s
  | .missing => hm
  | .list xs => hl xs (fun x hx => node_ind P hs hm hl hd x)
  | .dict es => hd es (fun e he => node_ind P hs hm hl hd e.2)
termination_by n => sizeOf n
decreasing_by
  · have := List.sizeOf_lt_of_mem hx
    simp <;> omega
  · have h1 := List.sizeOf_lt_of_mem he
    have h2 : sizeOf e.2 < sizeOf e := by
      obtain ⟨a, b⟩ := e
      simp <;> omega
    simp <;> omega

/-- Structural induction for `Entries` that also descends into dict values,
following the recursion pattern of `_prune_missing_inplace` / `_visit_dict`. -/
theorem entries_ind (P : Entries → Prop) (h0 : P [])
    (h1 : ∀ k v rest, P rest → (∀ es, v = Node.dict es → P es) → P ((k, v) :: rest)) :
    ∀ es, P es
  | [] => h0
  | (k, v) :: rest =>
      h1 k v rest (entries_ind P h0 h1 rest)
        (fun es hv => entries_ind P h0 h1 es)
termination_by es => sizeOf es
decreasing_by
  · simp <;> omega
  · subst hv
    simp <;> omega

theorem wfE_cons (k : String) (v : Node) (rest : Entries) :
    wfE ((k, v) :: rest) = (!(keyMemB rest k) && wfV v && wfE rest) := by
  simp [wfE]

theorem wfE_get_wfV (es : Entries) (k : String) (v : Node)
    (hwf : wfE es = true) (hget : alistGet es k = some v) : wfV v = true := by
  induction es with
  | nil => simp [alistGet] at hget
  | cons e rest ih =>
    obtain ⟨k', v'⟩ := e
    rw [wfE_cons] at hwf
    simp at hwf
    by_cases h : k' = k
    · simp [alistGet, h] at hget
      exact hget ▸ hwf.1.2
    · simp [alistGet, h] at hget
      exact ih hwf.2 hget

theorem wfE_get_dict (es : Entries) (k : String) (sub : Entries)
    (hwf : wfE es = true) (hget : alistGet es k = some (.dict sub)) : wfE sub = true := by
  have := wfE_get_wfV es k _ hwf hget
  simpa [wfV] using this

theorem getPath_cons_dict (t : Entries) (k : String) (p : NodePath) (es : Entries)
    (h : alistGet t k = some (.dict es)) (hp : p ≠ []) :
    getPath t (k :: p) = getPath es p := by
  cases p with
  | nil => exact absurd rfl hp
  | cons a as => simp [getPath, h]

theorem getPath_cons_none (t : Entries) (k : String) (p : NodePath)
    (h : alistGet t k = none) (hp : p ≠ []) :
    getPath t (k :: p) = none := by
  cases p with
  | nil => exact absurd rfl hp
  | cons a as => simp [getPath, h]

theorem getPath_cons_nondict (t : Entries) (k : String) (p : NodePath) (v : Node)
    (h : alistGet t k = some v) (hv : ∀ es, v ≠ .dict es) (hp : p ≠ []) :
    getPath t (k :: p) = none := by
  cases p with
  | nil => exact absurd rfl hp
  | cons a as =>
    cases v
    · simp [getPath, h]
    · simp [getPath, h]
    · simp [getPath, h]
    · rename_i es
      exact absurd rfl (hv es)

theorem alistSet_set_same (es : Entries) (k : String) (a b : Node) :
    alistSet (alistSet es k a) k b = alistSet es k b := by
  induction es with
  | nil => simp [alistSet]
  | cons e rest ih =>
    obtain ⟨k', v'⟩ := e
    by_cases h : k' = k
    · simp [alistSet, h]
    · simp [alistSet, h, ih]

theorem pathLt_cons (k : String) (p q : NodePath) :
    pathLt (k :: p) (k :: q) = pathLt p q := by
  simp [pathLt, pathLe]

theorem pathApart_cons (k : String) (p q : NodePath) :
    pathApart (k :: p) (k :: q) = pathApart p q := by
  simp [pathApart, pathLe]

theorem pathApart_cons_ne (a b : String) (p q : NodePath) (h : a ≠ b) :
    pathApart (a :: p) (b :: q) = true := by
  have h' : b ≠ a := fun e => h e.symm
  simp [pathApart, pathLe, h, h']

theorem pathLt_singleton_cons (k : String) (r : NodePath) (hr : r ≠ []) :
    pathLt [k] (k :: r) = true := by
  cases r with
  | nil => exact absurd rfl hr
  | cons a as => simp [pathLt, pathLe]

/-- Frame law for prefix materialization: `ensure_path_prefix(t, q)` changes
the value stored at `p` only when `p` is a strict prefix of `q`. -/
theorem getPath_eppTree (q : NodePath) (t : Entries) (p : NodePath)
    (h : pathLt p q = false) :
    getPath (eppTree t q) p = getPath t p := by
  induction q generalizing t p with
  | nil => simp [eppTree]
  | cons k q' ih =>
    cases q' with
    | nil => simp [eppTree]
    | cons r rs =>
      cases p with
      | nil => simp [getPath]
      | cons j p' =>
        by_cases hj : j = k
        · subst hj
          cases p' with
          | nil =>
            rw [pathLt_singleton_cons j (r :: rs) (by simp)] at h
            exact absurd h (by simp)
          | cons a as =>
            rw [pathLt_cons] at h
            have hnil : getPath ([] : Entries) (a :: as) = none := by
              cases as <;> simp [getPath, alistGet]
            show getPath (alistSet t j (.dict (eppTree (subOf t j) (r :: rs)))) (j :: a :: as) =
              getPath t (j :: a :: as)
            simp only [getPath, alistGet_set_self]
            rcases hg : alistGet t j with _ | v
            · simp [subOf, hg, ih, h, hnil]
            · cases v <;> simp [subOf, hg, ih, h, hnil]
        · show getPath (alistSet t k (.dict (eppTree (subOf t k) (r :: rs)))) (j :: p') =
            getPath t (j :: p')
          cases p' with
          | nil => simp [getPath, alistGet_set_other _ _ _ _ hj]
          | cons a as => simp [getPath, alistGet_set_other _ _ _ _ hj]

/-- Reading the leaf just written through the materialized parent mapping. -/
theorem getPath_setLeaf_self (p : NodePath) (t : Entries) (hp : p ≠ []) (w : Node) :
    getPath (setLeaf (eppTree t p) p w) p = some w := by
  induction p generalizing t with
  | nil => exact absurd rfl hp
  | cons k p' ih =>
    cases p' with
    | nil => simp [eppTree, setLeaf, getPath, alistGet_set_self]
    | cons r rs =>
      have hE : setLeaf (eppTree t (k :: r :: rs)) (k :: r :: rs) w =
          alistSet t k (.dict (setLeaf (eppTree (subOf t k) (r :: rs)) (r :: rs) w)) := by
        show setLeaf (alistSet t k (.dict (eppTree (subOf t k) (r :: rs)))) (k :: r :: rs) w = _
        simp only [setLeaf, alistGet_set_self, alistSet_set_same]
      rw [hE]
      simp only [getPath, alistGet_set_self]
      exact ih (subOf t k) (by simp)

/-- Frame law for the leaf write: writing at `q` does not change the value
read at any diverging path `p`. -/
theorem getPath_setLeaf_apart (q : NodePath) (t : Entries) (p : NodePath) (w : Node)
    (h : pathApart p q = true) :
    getPath (setLeaf t q w) p = getPath t p := by
  induction q generalizing t p with
  | nil => simp [setLeaf]
  | cons k q' ih =>
    cases p with
    | nil => simp [getPath]
    | cons j p' =>
      by_cases hj : j = k
      · subst hj
        cases q' with
        | nil =>
          exfalso
          have hle : pathLe [j] (j :: p') = true := by simp [pathLe]
          simp [pathApart, hle] at h
        | cons r rs =>
          cases p' with
          | nil =>
            exfalso
            have hle : pathLe [j] (j :: r :: rs) = true := by simp [pathLe]
            simp [pathApart, hle] at h
          | cons a as =>
            rw [pathApart_cons] at h
            simp only [setLeaf]
            rcases hg : alistGet t j with _ | v
            · rfl
            · cases v
              · rfl
              · rfl
              · rfl
              · rename_i es
                simp only [getPath, alistGet_set_self]
                rw [ih es (a :: as) h]
                simp [getPath, hg]
      · cases q' with
        | nil => cases p' <;> simp [setLeaf, getPath, alistGet_set_other _ _ _ _ hj]
        | cons r rs =>
          simp only [setLeaf]
          rcases hg : alistGet t k with _ | v
          · rfl
          · cases v
            · rfl
            · rfl
            · rfl
            · cases p' <;> simp [getPath, alistGet_set_other _ _ _ _ hj]

/-- A non-mapping value at `q` cuts off every strictly deeper path. -/
theorem getPath_cutoff (q : NodePath) (t : Entries) (p : NodePath) (w : Node)
    (hlt : pathLt q p = true) (hq : getPath t q = some w)
    (hw : ∀ es, w ≠ .dict es) :
    getPath t p = none := by
  induction q generalizing t p with
  | nil => simp [getPath] at hq
  | cons k q' ih =>
    cases p with
    | nil => simp [pathLt, pathLe] at hlt
    | cons j p' =>
      have hjk : k = j := by
        by_contra hne
        simp [pathLt, pathLe, hne] at hlt
      subst hjk
      rw [pathLt_cons] at hlt
      cases q' with
      | nil =>
        simp only [getPath] at hq
        cases p' with
        | nil => simp [pathLt, pathLe] at hlt
        | cons a as => exact getPath_cons_nondict t k (a :: as) w hq hw (by simp)
      | cons r rs =>
        cases p' with
        | nil => simp [pathLt, pathLe] at hlt
        | cons a as =>
          rcases hg : alistGet t k with _ | v
          · exact getPath_cons_none t k (a :: as) hg (by simp)
          · cases v
            · rw [getPath_cons_nondict t k (r :: rs) _ hg (by simp) (by simp)] at hq
              simp at hq
            · rw [getPath_cons_nondict t k (r :: rs) _ hg (by simp) (by simp)] at hq
              simp at hq
            · rw [getPath_cons_nondict t k (r :: rs) _ hg (by simp) (by simp)] at hq
              simp at hq
            · rename_i es
              rw [getPath_cons_dict t k (r :: rs) es hg (by simp)] at hq
              rw [getPath_cons_dict t k (a :: as) es hg (by simp)]
              exact ih es (a :: as) hlt hq

theorem eppTree_cons (t : Entries) (k r : String) (rs : List String) :
    eppTree t (k :: r :: rs) = alistSet t k (.dict (eppTree (subOf t k) (r :: rs))) := by
  simp [eppTree]

theorem setLeaf_epp_cons (t : Entries) (k r : String) (rs : List String) (w : Node) :
    setLeaf (eppTree t (k :: r :: rs)) (k :: r :: rs) w =
      alistSet t k (.dict (setLeaf (eppTree (subOf t k) (r :: rs)) (r :: rs) w)) := by
  rw [eppTree_cons]
  simp only [setLeaf, alistGet_set_self, alistSet_set_same]

theorem getPath_epp_cons (t : Entries) (k r : String) (rs : List String) :
    getPath (eppTree t (k :: r :: rs)) (k :: r :: rs) =
      getPath (eppTree (subOf t k) (r :: rs)) (r :: rs) := by
  rw [eppTree_cons]
  exact getPath_cons_dict _ _ _ _ (alistGet_set_self _ _ _) (by simp)

/-- `mergeNodePath` on a path of length ≥ 2 acts on the submapping at the head
key (fresh when absent or not a mapping), with the error renamed to the full
dotted path. -/
theorem mergeNodePath_cons (t : Entries) (k r : String) (rs : List String) (v : Node) :
    mergeNodePath t (k :: r :: rs) v =
      (match mergeNodePath (subOf t k) (r :: rs) v with
       | .ok s => .ok (alistSet t k (.dict s))
       | .error _ => .error (conflictMsg (k :: r :: rs))) := by
  cases v with
  | missing => simp [mergeNodePath, eppTree_cons]
  | list xs =>
      simp only [mergeNodePath, getPath_epp_cons]
      rcases hg : getPath (eppTree (subOf t k) (r :: rs)) (r :: rs) with _ | w
      · simp [setLeaf_epp_cons]
      · cases w <;> simp [setLeaf_epp_cons]
  | scalar s => simp [mergeNodePath, setLeaf_epp_cons]
  | dict es => simp [mergeNodePath, setLeaf_epp_cons]

theorem mergeNodePath_nil (t : Entries) (v : Node) :
    mergeNodePath t [] v = .ok t := by
  cases v <;> rfl

/-- Characterization of the type-conflict error: `_merge_node_path` raises
exactly when the new value is a list and the accumulator already holds a
non-list, non-`MISSING` value at the path, and the message names the full
dotted path. -/
theorem mergeNodePath_error_char (t : Entries) (p : NodePath) (v : Node) (e : String) :
    mergeNodePath t p v = .error e ↔
      ((∃ xs, v = .list xs) ∧
       (∃ w, getPath (eppTree t p) p = some w ∧ (∀ ys, w ≠ .list ys) ∧ w ≠ .missing) ∧
       e = conflictMsg p) := by
  cases v with
  | missing => simp [mergeNodePath]
  | scalar s => simp [mergeNodePath]
  | dict es => simp [mergeNodePath]
  | list xs =>
      simp only [mergeNodePath]
      rcases hg : getPath (eppTree t p) p with _ | w
      · simp [hg]
      · cases w <;> simp [hg] <;> exact eq_comm

theorem pathApart_not_lt (p q : NodePath) (h : pathApart p q = true) :
    pathLt p q = false := by
  simp [pathApart] at h
  simp [pathLt, h.1]

/-- Frame law: a merge step at `q` leaves the value at any diverging path `p`
unchanged. -/
theorem mergeNodePath_apart (t : Entries) (q : NodePath) (v : Node) (t' : Entries)
    (p : NodePath) (hap : pathApart p q = true) (h : mergeNodePath t q v = .ok t') :
    getPath t' p = getPath t p := by
  have hlt := pathApart_not_lt p q hap
  have hepp := getPath_eppTree q t p hlt
  cases v with
  | missing =>
      simp [mergeNodePath] at h
      rw [← h, hepp]
  | scalar s =>
      simp [mergeNodePath] at h
      rw [← h, getPath_setLeaf_apart q _ p _ hap, hepp]
  | dict es =>
      simp [mergeNodePath] at h
      rw [← h, getPath_setLeaf_apart q _ p _ hap, hepp]
  | list xs =>
      simp only [mergeNodePath] at h
      rcases hg : getPath (eppTree t q) q with _ | w
      · rw [hg] at h
        simp at h
        rw [← h, getPath_setLeaf_apart q _ p _ hap, hepp]
      · rw [hg] at h
        cases w <;> simp at h <;>
          rw [← h, getPath_setLeaf_apart q _ p _ hap, hepp]

/-- A merge step that writes a non-mapping leaf at `q` cuts off every strictly
deeper path. -/
theorem mergeNodePath_above (t : Entries) (q : NodePath) (v : Node) (t' : Entries)
    (p : NodePath) (hlt : pathLt q p = true) (hq : q ≠ [])
    (hvm : v ≠ .missing) (hvd : ∀ es, v ≠ .dict es)
    (h : mergeNodePath t q v = .ok t') : getPath t' p = none := by
  cases v with
  | missing => exact absurd rfl hvm
  | dict es => exact absurd rfl (hvd es)
  | scalar s =>
      simp [mergeNodePath] at h
      have hself := getPath_setLeaf_self q t hq (.scalar s)
      rw [h] at hself
      exact getPath_cutoff q t' p _ hlt hself (by simp)
  | list xs =>
      simp only [mergeNodePath] at h
      rcases hg : getPath (eppTree t q) q with _ | w
      · rw [hg] at h
        simp at h
        have hself := getPath_setLeaf_self q t hq (.list xs)
        rw [h] at hself
        exact getPath_cutoff q t' p _ hlt hself (by simp)
      · rw [hg] at h
        cases w with
        | list ys =>
            simp at h
            have hself := getPath_setLeaf_self q t hq (.list (ys ++ xs))
            rw [h] at hself
            exact getPath_cutoff q t' p _ hlt hself (by simp)
        | missing =>
            simp at h
            have hself := getPath_setLeaf_self q t hq (.list xs)
            rw [h] at hself
            exact getPath_cutoff q t' p _ hlt hself (by simp)
        | scalar s => simp at h
        | dict es => simp at h

theorem keyMemB_set_other (es : Entries) (k j : String) (v : Node) (h : j ≠ k) :
    keyMemB (alistSet es k v) j = keyMemB es j := by
  have h' : k ≠ j := fun e => h e.symm
  induction es with
  | nil => simp [alistSet, keyMemB, h']
  | cons e rest ih =>
    obtain ⟨k', v'⟩ := e
    by_cases hk : k' = k
    · subst hk
      simp [alistSet, keyMemB]
    · simp [alistSet, hk, keyMemB, ih]

theorem wfE_alistSet (es : Entries) (k : String) (v : Node)
    (hwf : wfE es = true) (hv : wfV v = true) : wfE (alistSet es k v) = true := by
  induction es with
  | nil => simp [alistSet, wfE, wfV, keyMemB, hv]
  | cons e rest ih =>
    obtain ⟨k', v'⟩ := e
    rw [wfE_cons] at hwf
    simp at hwf
    by_cases hk : k' = k
    · subst hk
      simp [alistSet]
      rw [wfE_cons]
      simp [hwf.1.1, hv, hwf.2]
    · simp [alistSet, hk]
      rw [wfE_cons]
      simp [keyMemB_set_other rest k k' v hk, hwf.1.1, hwf.1.2, ih hwf.2]

theorem wfE_eppTree (q : NodePath) (t : Entries) (hwf : wfE t = true) :
    wfE (eppTree t q) = true := by
  induction q generalizing t with
  | nil => simpa [eppTree]
  | cons k q' ih =>
    cases q' with
    | nil => simpa [eppTree]
    | cons r rs =>
      rw [eppTree_cons]
      have hsub : wfE (subOf t k) = true := by
        rcases hg : alistGet t k with _ | v
        · simp [subOf, hg, wfE]
        · cases v <;> simp [subOf, hg, wfE]
          exact wfE_get_dict t k _ hwf hg
      exact wfE_alistSet t k _ hwf (by simpa [wfV] using ih (subOf t k) hsub)

theorem wfE_setLeaf (q : NodePath) (t : Entries) (w : Node)
    (hwf : wfE t = true) (hw : wfV w = true) : wfE (setLeaf t q w) = true := by
  induction q generalizing t with
  | nil => simpa [setLeaf]
  | cons k q' ih =>
    cases q' with
    | nil => simpa [setLeaf] using wfE_alistSet t k w hwf hw
    | cons r rs =>
      simp only [setLeaf]
      rcases hg : alistGet t k with _ | v
      · exact hwf
      · cases v
        · exact hwf
        · exact hwf
        · exact hwf
        · rename_i es
          have hes : wfE es = true := wfE_get_dict t k es hwf hg
          exact wfE_alistSet t k _ hwf (by simpa [wfV] using ih es hes)

/-- The merge step keeps the accumulator a well-formed dict tree. -/
theorem wfE_mergeNodePath (t : Entries) (q : NodePath) (v : Node) (t' : Entries)
    (hwf : wfE t = true) (hv : wfV v = true) (h : mergeNodePath t q v = .ok t') :
    wfE t' = true := by
  have hepp := wfE_eppTree q t hwf
  cases v with
  | missing =>
      simp [mergeNodePath] at h
      exact h ▸ hepp
  | scalar s =>
      simp [mergeNodePath] at h
      exact h ▸ wfE_setLeaf q _ _ hepp (by simp [wfV])
  | dict es =>
      simp [mergeNodePath] at h
      exact h ▸ wfE_setLeaf q _ _ hepp hv
  | list xs =>
      simp only [mergeNodePath] at h
      rcases hg : getPath (eppTree t q) q with _ | w
      · rw [hg] at h
        simp at h
        exact h ▸ wfE_setLeaf q _ _ hepp (by simp [wfV])
      · rw [hg] at h
        cases w <;> simp at h <;> exact h ▸ wfE_setLeaf q _ _ hepp (by simp [wfV])

theorem getPath_cons_skip (k j : String) (v : Node) (rest : Entries) (p : NodePath)
    (h : k ≠ j) : getPath ((k, v) :: rest) (j :: p) = getPath rest (j :: p) := by
  cases p <;> simp [getPath, alistGet, h]

/-- Every `(path, value)` yielded by `_visit_dict` has a non-dict value. -/
theorem visitDict_val_nondict (L : Entries) :
    ∀ pv ∈ visitDict L, ∀ es, pv.2 ≠ Node.dict es := by
  induction L using entries_ind with
  | h0 => simp [visitDict]
  | h1 k v rest ihr ihd =>
    intro pv hpv es
    cases v with
    | dict es0 =>
        simp only [visitDict] at hpv
        rcases List.mem_append.1 hpv with hl | hr
        · simp only [List.mem_map] at hl
          obtain ⟨qv, hq, rfl⟩ := hl
          exact ihd es0 rfl qv hq es
        · exact ihr pv hr es
    | scalar s =>
        simp only [visitDict] at hpv
        rcases List.mem_append.1 hpv with hl | hr
        · simp at hl; simp [hl]
        · exact ihr pv hr es
    | missing =>
        simp only [visitDict] at hpv
        rcases List.mem_append.1 hpv with hl | hr
        · simp at hl; simp [hl]
        · exact ihr pv hr es
    | list xs =>
        simp only [visitDict] at hpv
        rcases List.mem_append.1 hpv with hl | hr
        · simp at hl; simp [hl]
        · exact ihr pv hr es

/-- Every `(path, value)` yielded by `_visit_dict` has a non-empty path whose
head is a key of the layer. -/
theorem visitDict_path_head (L : Entries) :
    ∀ pv ∈ visitDict L, ∃ j q, pv.1 = j :: q ∧ keyMemB L j = true := by
  induction L using entries_ind with
  | h0 => simp [visitDict]
  | h1 k v rest ihr ihd =>
    intro pv hpv
    have hrest : pv ∈ visitDict rest → ∃ j q, pv.1 = j :: q ∧ keyMemB ((k, v) :: rest) j = true := by
      intro hr
      obtain ⟨j, q, h1, h2⟩ := ihr pv hr
      exact ⟨j, q, h1, by simp [keyMemB, h2]⟩
    cases v with
    | dict es0 =>
        simp only [visitDict] at hpv
        rcases List.mem_append.1 hpv with hl | hr
        · simp only [List.mem_map] at hl
          obtain ⟨qv, hq, rfl⟩ := hl
          exact ⟨k, qv.1, rfl, by simp [keyMemB]⟩
        · exact hrest hr
    | scalar s =>
        simp only [visitDict] at hpv
        rcases List.mem_append.1 hpv with hl | hr
        · simp at hl; exact ⟨k, [], by simp [hl], by simp [keyMemB]⟩
        · exact hrest hr
    | missing =>
        simp only [visitDict] at hpv
        rcases List.mem_append.1 hpv with hl | hr
        · simp at hl; exact ⟨k, [], by simp [hl], by simp [keyMemB]⟩
        · exact hrest hr
    | list xs =>
        simp only [visitDict] at hpv
        rcases List.mem_append.1 hpv with hl | hr
        · simp at hl; exact ⟨k, [], by simp [hl], by simp [keyMemB]⟩
        · exact hrest hr

/-- On a well-formed layer, `_visit_dict` is sound: every yielded pair is the
value actually stored at that path. -/
theorem visitDict_sound (L : Entries) (hwf : wfE L = true) :
    ∀ pv ∈ visitDict L, getPath L pv.1 = some pv.2 := by
  induction L using entries_ind with
  | h0 => simp [visitDict]
  | h1 k v rest ihr ihd =>
    rw [wfE_cons] at hwf
    simp at hwf
    intro pv hpv
    have hrest : pv ∈ visitDict rest → getPath ((k, v) :: rest) pv.1 = some pv.2 := by
      intro hr
      obtain ⟨j, q, h1, h2⟩ := visitDict_path_head rest pv hr
      have hjk : k ≠ j := by
        intro e
        subst e
        exact absurd h2 (by simp [hwf.1.1])
      rw [h1, getPath_cons_skip k j v rest q hjk, ← h1]
      exact ihr hwf.2 pv hr
    cases v with
    | dict es0 =>
        simp only [visitDict] at hpv
        rcases List.mem_append.1 hpv with hl | hr
        · simp only [List.mem_map] at hl
          obtain ⟨qv, hq, rfl⟩ := hl
          have hq0 : qv.1 ≠ [] := by
            obtain ⟨j, q, h1, _⟩ := visitDict_path_head es0 qv hq
            simp [h1]
          rw [getPath_cons_dict _ k qv.1 es0 (by simp [alistGet]) hq0]
          exact ihd es0 rfl (by simpa [wfV] using hwf.1.2) qv hq
        · exact hrest hr
    | scalar s =>
        simp only [visitDict] at hpv
        rcases List.mem_append.1 hpv with hl | hr
        · simp at hl
          simp [hl, getPath, alistGet]
        · exact hrest hr
    | missing =>
        simp only [visitDict] at hpv
        rcases List.mem_append.1 hpv with hl | hr
        · simp at hl
          simp [hl, getPath, alistGet]
        · exact hrest hr
    | list xs =>
        simp only [visitDict] at hpv
        rcases List.mem_append.1 hpv with hl | hr
        · simp at hl
          simp [hl, getPath, alistGet]
        · exact hrest hr

/-- If nothing is stored at `p`, nothing is stored at any deeper path either. -/
theorem getPath_le_none (p : NodePath) (L : Entries) (q : NodePath)
    (hle : pathLe p q = true) (hp : p ≠ []) (h : getPath L p = none) :
    getPath L q = none := by
  induction p generalizing L q with
  | nil => exact absurd rfl hp
  | cons k p' ih =>
    cases q with
    | nil => simp [pathLe] at hle
    | cons j q' =>
      have hkj : k = j := by
        by_contra hne
        simp [pathLe, hne] at hle
      subst hkj
      simp [pathLe] at hle
      cases p' with
      | nil =>
        simp only [getPath] at h
        cases q' with
        | nil => simpa [getPath]
        | cons a as => simp [getPath, h]
      | cons b bs =>
        cases q' with
        | nil => simp [pathLe] at hle
        | cons a as =>
          rcases hg : alistGet L k with _ | w
          · exact getPath_cons_none L k (a :: as) hg (by simp)
          · cases w with
            | dict es =>
                rw [getPath_cons_dict L k (b :: bs) es hg (by simp)] at h
                rw [getPath_cons_dict L k (a :: as) es hg (by simp)]
                exact ih es (a :: as) hle (by simp) h
            | scalar s => exact getPath_cons_nondict L k (a :: as) _ hg (by simp) (by simp)
            | missing => exact getPath_cons_nondict L k (a :: as) _ hg (by simp) (by simp)
            | list xs => exact getPath_cons_nondict L k (a :: as) _ hg (by simp) (by simp)

theorem alistGet_prune_none (t : Entries) (k : String) (h : alistGet t k = none) :
    alistGet (pruneMissing t) k = none := by
  induction t using entries_ind with
  | h0 => simpa [pruneMissing] using h
  | h1 k' v rest ihr ihd =>
    simp only [alistGet] at h
    by_cases hk : k' = k
    · simp [hk] at h
    · simp [hk] at h
      cases v with
      | missing => simp only [pruneMissing]; exact ihr h
      | dict es =>
          cases es with
          | nil => simp only [pruneMissing]; simp [alistGet, hk]; exact ihr h
          | cons e es2 => simp only [pruneMissing]; simp [alistGet, hk]; exact ihr h
      | scalar s => simp only [pruneMissing]; simp [alistGet, hk]; exact ihr h
      | list xs => simp only [pruneMissing]; simp [alistGet, hk]; exact ihr h

theorem alistGet_prune_list (t : Entries) (k : String) (xs : List Node)
    (h : alistGet t k = some (.list xs)) :
    alistGet (pruneMissing t) k = some (.list xs) := by
  induction t using entries_ind with
  | h0 => simp [alistGet] at h
  | h1 k' v rest ihr ihd =>
    simp only [alistGet] at h
    by_cases hk : k' = k
    · simp [hk] at h
      subst h
      simp only [pruneMissing]
      simp [alistGet, hk]
    · simp [hk] at h
      cases v with
      | missing => simp only [pruneMissing]; exact ihr h
      | dict es =>
          cases es with
          | nil => simp only [pruneMissing]; simp [alistGet, hk]; exact ihr h
          | cons e es2 => simp only [pruneMissing]; simp [alistGet, hk]; exact ihr h
      | scalar s => simp only [pruneMissing]; simp [alistGet, hk]; exact ihr h
      | list ys => simp only [pruneMissing]; simp [alistGet, hk]; exact ihr h

theorem alistGet_prune_scalar (t : Entries) (k : String) (sc : Scal)
    (h : alistGet t k = some (.scalar sc)) :
    alistGet (pruneMissing t) k = some (.scalar sc) := by
  induction t using entries_ind with
  | h0 => simp [alistGet] at h
  | h1 k' v rest ihr ihd =>
    simp only [alistGet] at h
    by_cases hk : k' = k
    · simp [hk] at h
      subst h
      simp only [pruneMissing]
      simp [alistGet, hk]
    · simp [hk] at h
      cases v with
      | missing => simp only [pruneMissing]; exact ihr h
      | dict es =>
          cases es with
          | nil => simp only [pruneMissing]; simp [alistGet, hk]; exact ihr h
          | cons e es2 => simp only [pruneMissing]; simp [alistGet, hk]; exact ihr h
      | scalar s2 => simp only [pruneMissing]; simp [alistGet, hk]; exact ihr h
      | list ys => simp only [pruneMissing]; simp [alistGet, hk]; exact ihr h

theorem alistGet_prune_dict (t : Entries) (k : String) (es : Entries)
    (h : alistGet t k = some (.dict es)) :
    alistGet (pruneMissing t) k = some (.dict (pruneMissing es)) := by
  induction t using entries_ind with
  | h0 => simp [alistGet] at h
  | h1 k' v rest ihr ihd =>
    simp only [alistGet] at h
    by_cases hk : k' = k
    · simp [hk] at h
      subst h
      cases es with
      | nil => simp only [pruneMissing]; simp [alistGet, hk]
      | cons e es2 => simp only [pruneMissing]; simp [alistGet, hk]
    · simp [hk] at h
      cases v with
      | missing => simp only [pruneMissing]; exact ihr h
      | dict es3 =>
          cases es3 with
          | nil => simp only [pruneMissing]; simp [alistGet, hk]; exact ihr h
          | cons e es2 => simp only [pruneMissing]; simp [alistGet, hk]; exact ihr h
      | scalar s2 => simp only [pruneMissing]; simp [alistGet, hk]; exact ihr h
      | list ys => simp only [pruneMissing]; simp [alistGet, hk]; exact ihr h

theorem alistGet_prune_missing (t : Entries) (k : String) (hwf : wfE t = true)
    (h : alistGet t k = some .missing) :
    alistGet (pruneMissing t) k = none := by
  induction t using entries_ind with
  | h0 => simp [alistGet] at h
  | h1 k' v rest ihr ihd =>
    rw [wfE_cons] at hwf
    simp at hwf
    simp only [alistGet] at h
    by_cases hk : k' = k
    · simp [hk] at h
      subst h
      simp only [pruneMissing]
      exact alistGet_prune_none rest k (keyMemB_false_get rest k (hk ▸ hwf.1.1))
    · simp [hk] at h
      cases v with
      | missing => simp only [pruneMissing]; exact ihr hwf.2 h
      | dict es =>
          cases es with
          | nil => simp only [pruneMissing]; simp [alistGet, hk]; exact ihr hwf.2 h
          | cons e es2 => simp only [pruneMissing]; simp [alistGet, hk]; exact ihr hwf.2 h
      | scalar s2 => simp only [pruneMissing]; simp [alistGet, hk]; exact ihr hwf.2 h
      | list ys => simp only [pruneMissing]; simp [alistGet, hk]; exact ihr hwf.2 h

/-- The final pruning sweep keeps every list value verbatim, wherever it is
stored: `_prune_missing_inplace` recurses only into mapping values. -/
theorem getPath_prune_list (p : NodePath) (t : Entries) (xs : List Node)
    (h : getPath t p = some (.list xs)) :
    getPath (pruneMissing t) p = some (.list xs) := by
  induction p generalizing t with
  | nil => simp [getPath] at h
  | cons k p' ih =>
    cases p' with
    | nil =>
      simp only [getPath] at h ⊢
      exact alistGet_prune_list t k xs h
    | cons r rs =>
      rcases hg : alistGet t k with _ | w
      · rw [getPath_cons_none t k (r :: rs) hg (by simp)] at h
        simp at h
      · cases w with
        | dict es =>
            rw [getPath_cons_dict t k (r :: rs) es hg (by simp)] at h
            rw [getPath_cons_dict (pruneMissing t) k (r :: rs) (pruneMissing es)
              (alistGet_prune_dict t k es hg) (by simp)]
            exact ih es h
        | scalar s =>
            rw [getPath_cons_nondict t k (r :: rs) _ hg (by simp) (by simp)] at h
            simp at h
        | missing =>
            rw [getPath_cons_nondict t k (r :: rs) _ hg (by simp) (by simp)] at h
            simp at h
        | list ys =>
            rw [getPath_cons_nondict t k (r :: rs) _ hg (by simp) (by simp)] at h
            simp at h

/-- After the final sweep nothing is stored at a path that held `MISSING` (or
nothing) in the accumulator. -/
theorem getPath_prune_inv (p : NodePath) (t : Entries) (hwf : wfE t = true)
    (h : getPath t p = none ∨ getPath t p = some .missing) :
    getPath (pruneMissing t) p = none := by
  induction p generalizing t with
  | nil => simp [getPath]
  | cons k p' ih =>
    cases p' with
    | nil =>
      simp only [getPath] at h ⊢
      rcases h with h | h
      · exact alistGet_prune_none t k h
      · exact alistGet_prune_missing t k hwf h
    | cons r rs =>
      rcases hg : alistGet t k with _ | w
      · exact getPath_cons_none _ k (r :: rs) (alistGet_prune_none t k hg) (by simp)
      · cases w with
        | dict es =>
            rw [getPath_cons_dict t k (r :: rs) es hg (by simp)] at h
            rw [getPath_cons_dict (pruneMissing t) k (r :: rs) (pruneMissing es)
              (alistGet_prune_dict t k es hg) (by simp)]
            exact ih es (wfE_get_dict t k es hwf hg) h
        | scalar s =>
            exact getPath_cons_nondict _ k (r :: rs) _ (alistGet_prune_scalar t k s hg)
              (by simp) (by simp)
        | missing =>
            exact getPath_cons_none _ k (r :: rs) (alistGet_prune_missing t k hwf hg)
              (by simp)
        | list ys =>
            exact getPath_cons_nondict _ k (r :: rs) _ (alistGet_prune_list t k ys hg)
              (by simp) (by simp)

theorem keyMemB_prune_le (t : Entries) (j : String)
    (h : keyMemB (pruneMissing t) j = true) : keyMemB t j = true := by
  induction t using entries_ind with
  | h0 => simpa [pruneMissing] using h
  | h1 k v rest ihr ihd =>
    cases v with
    | missing =>
        simp only [pruneMissing] at h
        simp [keyMemB, ihr h]
    | dict es =>
        cases es with
        | nil =>
            simp only [pruneMissing] at h
            simp [keyMemB] at h ⊢
            rcases h with h | h
            · exact Or.inl h
            · exact Or.inr (ihr h)
        | cons e es2 =>
            simp only [pruneMissing] at h
            simp [keyMemB] at h ⊢
            rcases h with h | h
            · exact Or.inl h
            · exact Or.inr (ihr h)
    | scalar s =>
        simp only [pruneMissing] at h
        simp [keyMemB] at h ⊢
        rcases h with h | h
        · exact Or.inl h
        · exact Or.inr (ihr h)
    | list xs =>
        simp only [pruneMissing] at h
        simp [keyMemB] at h ⊢
        rcases h with h | h
        · exact Or.inl h
        · exact Or.inr (ihr h)

theorem wfE_prune (t : Entries) (hwf : wfE t = true) : wfE (pruneMissing t) = true := by
  induction t using entries_ind with
  | h0 => simpa [pruneMissing] using hwf
  | h1 k v rest ihr ihd =>
    rw [wfE_cons] at hwf
    simp at hwf
    have hmem : keyMemB (pruneMissing rest) k = false := by
      rcases hm : keyMemB (pruneMissing rest) k with _ | _
      · rfl
      · exact absurd (keyMemB_prune_le rest k hm) (by simp [hwf.1.1])
    cases v with
    | missing => simp only [pruneMissing]; exact ihr hwf.2
    | dict es =>
        cases es with
        | nil =>
            simp only [pruneMissing]
            rw [wfE_cons]
            simp [hmem, ihr hwf.2, wfV, wfE]
        | cons e es2 =>
            simp only [pruneMissing]
            rw [wfE_cons]
            have hes : wfE (pruneMissing (e :: es2)) = true :=
              ihd (e :: es2) rfl (by simpa [wfV] using hwf.1.2)
            simp [hmem, ihr hwf.2, wfV, hes]
    | scalar s =>
        simp only [pruneMissing]
        rw [wfE_cons]
        simp [hmem, ihr hwf.2, wfV]
    | list xs =>
        simp only [pruneMissing]
        rw [wfE_cons]
        simp [hmem, ihr hwf.2, wfV]

/-- The final sweep is idempotent. -/
theorem prune_idem (t : Entries) : pruneMissing (pruneMissing t) = pruneMissing t := by
  induction t using entries_ind with
  | h0 => simp [pruneMissing]
  | h1 k v rest ihr ihd =>
    cases v with
    | missing => simp only [pruneMissing]; exact ihr
    | scalar s => simp only [pruneMissing]; rw [ihr]
    | list xs => simp only [pruneMissing]; rw [ihr]
    | dict es =>
        cases es with
        | nil => simp only [pruneMissing]; rw [ihr]
        | cons e es2 =>
            simp only [pruneMissing]
            have hsub := ihd (e :: es2) rfl
            rcases hp : pruneMissing (e :: es2) with _ | ⟨e2, es3⟩
            · simp only [pruneMissing]
              rw [ihr]
            · simp only [pruneMissing]
              rw [ihr, ← hp, hsub]

theorem pathLe_refl (p : NodePath) : pathLe p p = true := by
  induction p with
  | nil => rfl
  | cons k p' ih => simp [pathLe, ih]

theorem pathLt_irrefl (p : NodePath) : pathLt p p = false := by
  simp [pathLt, pathLe_refl]

theorem pathLt_of_le_not_le (q p : NodePath) (h1 : pathLe q p = true)
    (h2 : pathLe p q = false) : pathLt q p = true := by
  simp [pathLt, h1, h2]

theorem foldlM_cons_ok {α : Type} (step : Entries → α → Except String Entries)
    (x : α) (rest : List α) (acc final : Entries)
    (h : (x :: rest).foldlM step acc = .ok final) :
    ∃ mid, step acc x = .ok mid ∧ rest.foldlM step mid = .ok final := by
  rw [List.foldlM_cons] at h
  rcases hs : step acc x with e | mid
  · rw [hs] at h
    rw [show ((Except.error e : Except String Entries) >>= fun a => rest.foldlM step a) =
      Except.error e from rfl] at h
    exact absurd h (by simp)
  · rw [hs] at h
    exact ⟨mid, rfl, h⟩

/-- One merge step preserves the invariant "nothing or `MISSING` at `p`",
provided the pair targets `p` only as a marker and never writes a mapping. -/
theorem mergeStep_inv (p q : NodePath) (v : Node) (t t' : Entries)
    (hq : q ≠ []) (hvd : ∀ es, v ≠ .dict es)
    (hself : pathLe p q = true → q = p ∧ v = .missing)
    (h : mergeNodePath t q v = .ok t')
    (hInv : getPath t p = none ∨ getPath t p = some .missing) :
    getPath t' p = none ∨ getPath t' p = some .missing := by
  rcases hle : pathLe p q with _ | _
  · rcases hle2 : pathLe q p with _ | _
    · -- diverging paths: frame
      have hap : pathApart p q = true := by simp [pathApart, hle, hle2]
      rw [mergeNodePath_apart t q v t' p hap h]
      exact hInv
    · -- q strictly above p
      have hlt : pathLt q p = true := pathLt_of_le_not_le q p hle2 hle
      cases v with
      | missing =>
          simp [mergeNodePath] at h
          rw [← h, getPath_eppTree q t p (by simp [pathLt, hle])]
          exact hInv
      | scalar s =>
          exact Or.inl (mergeNodePath_above t q _ t' p hlt hq (by simp) (by simp) h)
      | list xs =>
          exact Or.inl (mergeNodePath_above t q _ t' p hlt hq (by simp) (by simp) h)
      | dict es => exact absurd rfl (hvd es)
  · obtain ⟨rfl, rfl⟩ := hself hle
    simp [mergeNodePath] at h
    rw [← h, getPath_eppTree q t q (by simp [pathLt_irrefl])]
    exact hInv

/-- Folding a pair list preserves the invariant and well-formedness. -/
theorem foldPairs_inv (p : NodePath) (pairs : List (NodePath × Node))
    (acc acc' : Entries)
    (hwf : wfE acc = true)
    (hps : ∀ pv ∈ pairs, pv.1 ≠ [] ∧ (∀ es, pv.2 ≠ Node.dict es) ∧
      (pathLe p pv.1 = true → pv.1 = p ∧ pv.2 = .missing))
    (hInv : getPath acc p = none ∨ getPath acc p = some .missing)
    (h : pairs.foldlM (fun t pv => mergeNodePath t pv.1 pv.2) acc = .ok acc') :
    (getPath acc' p = none ∨ getPath acc' p = some .missing) ∧ wfE acc' = true := by
  induction pairs generalizing acc with
  | nil =>
    rw [show (([] : List (NodePath × Node)).foldlM
      (fun t pv => mergeNodePath t pv.1 pv.2) acc) = Except.ok acc from rfl] at h
    cases h
    exact ⟨hInv, hwf⟩
  | cons pv rest ih =>
    obtain ⟨mid, h1, h2⟩ := foldlM_cons_ok _ pv rest acc acc' h
    obtain ⟨hq, hvd, hself⟩ := hps pv (by simp)
    have hwv : wfV pv.2 = true := by
      cases hv : pv.2 <;> simp [wfV]
      exact absurd hv (hvd _)
    exact ih mid (wfE_mergeNodePath acc pv.1 pv.2 mid hwf hwv h1)
      (fun qv hqv => hps qv (by simp [hqv]))
      (mergeStep_inv p pv.1 pv.2 acc mid hq hvd hself h1 hInv) h2

/-- Folding pairs that all diverge from `p` leaves the value at `p` unchanged. -/
theorem foldPairs_frame (p : NodePath) (pairs : List (NodePath × Node))
    (acc acc' : Entries)
    (hwf : wfE acc = true)
    (hps : ∀ pv ∈ pairs, pathApart p pv.1 = true ∧ (∀ es, pv.2 ≠ Node.dict es))
    (h : pairs.foldlM (fun t pv => mergeNodePath t pv.1 pv.2) acc = .ok acc') :
    getPath acc' p = getPath acc p ∧ wfE acc' = true := by
  induction pairs generalizing acc with
  | nil =>
    rw [show (([] : List (NodePath × Node)).foldlM
      (fun t pv => mergeNodePath t pv.1 pv.2) acc) = Except.ok acc from rfl] at h
    cases h
    exact ⟨rfl, hwf⟩
  | cons pv rest ih =>
    obtain ⟨mid, h1, h2⟩ := foldlM_cons_ok _ pv rest acc acc' h
    obtain ⟨hap, hvd⟩ := hps pv (by simp)
    have hwv : wfV pv.2 = true := by
      cases hv : pv.2 <;> simp [wfV]
      exact absurd hv (hvd _)
    have hmid := ih mid (wfE_mergeNodePath acc pv.1 pv.2 mid hwf hwv h1)
      (fun qv hqv => hps qv (by simp [hqv])) h2
    rw [hmid.1, mergeNodePath_apart acc pv.1 pv.2 mid p hap h1]
    exact ⟨rfl, hmid.2⟩

theorem pathLe_antisymm (p q : NodePath) (h1 : pathLe p q = true)
    (h2 : pathLe q p = true) : p = q := by
  induction p generalizing q with
  | nil => cases q with
    | nil => rfl
    | cons b bs => simp [pathLe] at h2
  | cons a as ih =>
    cases q with
    | nil => simp [pathLe] at h1
    | cons b bs =>
      simp [pathLe] at h1 h2
      rw [h1.1, ih bs h1.2 h2.2]

theorem foldPairs_wf (pairs : List (NodePath × Node)) (acc acc' : Entries)
    (hwf : wfE acc = true)
    (hps : ∀ pv ∈ pairs, ∀ es, pv.2 ≠ Node.dict es)
    (h : pairs.foldlM (fun t pv => mergeNodePath t pv.1 pv.2) acc = .ok acc') :
    wfE acc' = true := by
  induction pairs generalizing acc with
  | nil =>
    rw [show (([] : List (NodePath × Node)).foldlM
      (fun t pv => mergeNodePath t pv.1 pv.2) acc) = Except.ok acc from rfl] at h
    cases h
    exact hwf
  | cons pv rest ih =>
    obtain ⟨mid, h1, h2⟩ := foldlM_cons_ok _ pv rest acc acc' h
    have hwv : wfV pv.2 = true := by
      cases hv : pv.2 <;> simp [wfV]
      exact absurd hv (hps pv (by simp) _)
    exact ih mid (wfE_mergeNodePath acc pv.1 pv.2 mid hwf hwv h1)
      (fun qv hqv => hps qv (by simp [hqv])) h2

/-- Applying a later layer keeps the accumulator well formed. -/
theorem wfE_applyLayer (acc L acc' : Entries) (hwf : wfE acc = true)
    (h : applyLayer acc L = .ok acc') : wfE acc' = true :=
  foldPairs_wf (visitDict L) acc acc' hwf
    (fun pv hpv => visitDict_val_nondict L pv hpv) h

/-- A later layer holding nothing or a bare marker at `p` cannot establish a
value at `p`. -/
theorem applyLayer_inv (p : NodePath) (acc L acc' : Entries)
    (hwfa : wfE acc = true) (hwfL : wfE L = true)
    (hL : getPath L p = none ∨ getPath L p = some .missing)
    (hInv : getPath acc p = none ∨ getPath acc p = some .missing)
    (h : applyLayer acc L = .ok acc') :
    (getPath acc' p = none ∨ getPath acc' p = some .missing) ∧ wfE acc' = true := by
  cases p with
  | nil => exact ⟨Or.inl (by simp [getPath]), wfE_applyLayer acc L acc' hwfa h⟩
  | cons k p0 =>
    refine foldPairs_inv (k :: p0) (visitDict L) acc acc' hwfa ?_ hInv h
    intro pv hpv
    refine ⟨?_, visitDict_val_nondict L pv hpv, ?_⟩
    · obtain ⟨j, q, h1, _⟩ := visitDict_path_head L pv hpv
      simp [h1]
    · intro hle
      have hsound := visitDict_sound L hwfL pv hpv
      rcases hL with hL | hL
      · exact absurd (hsound.symm.trans (getPath_le_none (k :: p0) L pv.1 hle (by simp) hL))
          (by simp)
      · by_cases heq : pv.1 = k :: p0
        · refine ⟨heq, ?_⟩
          rw [heq] at hsound
          rw [hL] at hsound
          exact (Option.some.inj hsound).symm
        · have hnle : pathLe pv.1 (k :: p0) = false := by
            rcases hx : pathLe pv.1 (k :: p0) with _ | _
            · rfl
            · exact absurd (pathLe_antisymm pv.1 (k :: p0) hx hle) heq
          have hlt : pathLt (k :: p0) pv.1 = true := pathLt_of_le_not_le _ _ hle hnle
          have := getPath_cutoff (k :: p0) L pv.1 .missing hlt hL (by simp)
          exact absurd (hsound.symm.trans this) (by simp)

/-- On a well-formed layer that stores a non-dict value `v` at `p`, the visit
sequence contains `(p, v)` once, all other pairs diverging from `p`. -/
theorem visit_decomp (L : Entries) (hwf : wfE L = true) :
    ∀ (p : NodePath) (v : Node), getPath L p = some v → (∀ es, v ≠ Node.dict es) →
    ∃ l1 l2, visitDict L = l1 ++ (p, v) :: l2 ∧
      (∀ pv ∈ l1, pathApart p pv.1 = true) ∧ (∀ pv ∈ l2, pathApart p pv.1 = true) := by
  induction L using entries_ind with
  | h0 =>
    intro p v hv _
    rw [show getPath [] p = none from by
      cases p with
      | nil => simp [getPath]
      | cons a as => cases as <;> simp [getPath, alistGet]] at hv
    simp at hv
  | h1 k v0 rest ihr ihd =>
    rw [wfE_cons] at hwf
    simp at hwf
    intro p v hv hvd
    have hrestApart : ∀ (q : NodePath), ∀ pv ∈ visitDict rest,
        pathApart (k :: q) pv.1 = true := by
      intro q pv hpv
      obtain ⟨j2, q2, h1, h2⟩ := visitDict_path_head rest pv hpv
      have hne : j2 ≠ k := fun e => absurd (e ▸ h2) (by simp [hwf.1.1])
      rw [h1]
      exact pathApart_cons_ne k j2 q q2 (fun e => hne e.symm)
    cases p with
    | nil => simp [getPath] at hv
    | cons j p' =>
      by_cases hjk : j = k
      · subst hjk
        cases p' with
        | nil =>
          have hv' : v0 = v := by
            simpa [getPath, alistGet] using hv
          subst hv'
          cases v0 with
          | dict es => exact absurd rfl (hvd es)
          | scalar s =>
            exact ⟨[], visitDict rest, by simp [visitDict], by simp, hrestApart []⟩
          | missing =>
            exact ⟨[], visitDict rest, by simp [visitDict], by simp, hrestApart []⟩
          | list xs =>
            exact ⟨[], visitDict rest, by simp [visitDict], by simp, hrestApart []⟩
        | cons a as =>
          cases v0 with
          | dict es =>
            rw [getPath_cons_dict _ j (a :: as) es (by simp [alistGet]) (by simp)] at hv
            obtain ⟨l1, l2, hd1, hd2, hd3⟩ :=
              ihd es rfl (by simpa [wfV] using hwf.1.2) (a :: as) v hv hvd
            refine ⟨l1.map (fun pv => (j :: pv.1, pv.2)),
              l2.map (fun pv => (j :: pv.1, pv.2)) ++ visitDict rest, ?_, ?_, ?_⟩
            · rw [visitDict, hd1]
              simp
            · intro pv hpv
              simp only [List.mem_map] at hpv
              obtain ⟨qv, hq, rfl⟩ := hpv
              rw [pathApart_cons]
              exact hd2 qv hq
            · intro pv hpv
              rcases List.mem_append.1 hpv with hm | hm
              · simp only [List.mem_map] at hm
                obtain ⟨qv, hq, rfl⟩ := hm
                rw [pathApart_cons]
                exact hd3 qv hq
              · exact hrestApart (a :: as) pv hm
          | scalar s =>
            rw [getPath_cons_nondict ((j, Node.scalar s) :: rest) j (a :: as)
              (Node.scalar s) (by simp [alistGet]) (by simp) (by simp)] at hv
            simp at hv
          | missing =>
            rw [getPath_cons_nondict ((j, Node.missing) :: rest) j (a :: as)
              Node.missing (by simp [alistGet]) (by simp) (by simp)] at hv
            simp at hv
          | list xs =>
            rw [getPath_cons_nondict ((j, Node.list xs) :: rest) j (a :: as)
              (Node.list xs) (by simp [alistGet]) (by simp) (by simp)] at hv
            simp at hv
      · rw [getPath_cons_skip k j v0 rest p' (fun e => hjk e.symm)] at hv
        obtain ⟨l1, l2, hd1, hd2, hd3⟩ := ihr hwf.2 (j :: p') v hv hvd
        have hheadApart : ∀ pv ∈ (match v0 with
            | Node.dict es => (visitDict es).map (fun (pv : NodePath × Node) => (k :: pv.1, pv.2))
            | _ => [([k], v0)]), pathApart (j :: p') pv.1 = true := by
          intro pv hpv
          cases v0 with
          | dict es =>
            simp only [List.mem_map] at hpv
            obtain ⟨qv, hq, rfl⟩ := hpv
            exact pathApart_cons_ne j k p' qv.1 hjk
          | scalar s =>
            simp at hpv
            rw [hpv]
            exact pathApart_cons_ne j k p' [] hjk
          | missing =>
            simp at hpv
            rw [hpv]
            exact pathApart_cons_ne j k p' [] hjk
          | list xs =>
            simp at hpv
            rw [hpv]
            exact pathApart_cons_ne j k p' [] hjk
        refine ⟨(match v0 with
            | Node.dict es => (visitDict es).map (fun (pv : NodePath × Node) => (k :: pv.1, pv.2))
            | _ => [([k], v0)]) ++ l1, l2, ?_, ?_, hd3⟩
        · cases v0 <;> simp [visitDict, hd1]
        · intro pv hpv
          rcases List.mem_append.1 hpv with hm | hm
          · exact hheadApart pv hm
          · exact hd2 pv hm

theorem except_bind_ok {α β : Type} (x : Except String α) (f : α → Except String β)
    (b : β) (h : x >>= f = .ok b) : ∃ a, x = .ok a ∧ f a = .ok b := by
  cases x with
  | error e =>
    rw [show ((Except.error e : Except String α) >>= f) = Except.error e from rfl] at h
    exact absurd h (by simp)
  | ok a => exact ⟨a, rfl, h⟩

theorem except_pure_eq (a : Entries) : (pure a : Except String Entries) = Except.ok a := rfl

theorem except_ok_bind {α β : Type} (a : α) (f : α → Except String β) :
    (Except.ok a >>= f : Except String β) = f a := rfl

theorem mergeNodePath_list_append (t : Entries) (p : NodePath) (ys xs : List Node)
    (hget : getPath t p = some (.list ys)) :
    mergeNodePath t p (.list xs) = .ok (setLeaf (eppTree t p) p (.list (ys ++ xs))) := by
  simp only [mergeNodePath]
  rw [getPath_eppTree p t p (pathLt_irrefl p), hget]

/-- Applying a layer that stores a list at `p` appends that list to the
accumulator's list at `p`. -/
theorem applyLayer_list_append (p : NodePath) (acc L acc' : Entries) (xs ys : List Node)
    (hwfa : wfE acc = true) (hwfL : wfE L = true)
    (hL : getPath L p = some (.list xs))
    (hacc : getPath acc p = some (.list ys))
    (h : applyLayer acc L = .ok acc') :
    getPath acc' p = some (.list (ys ++ xs)) ∧ wfE acc' = true := by
  obtain ⟨l1, l2, hd1, hd2, hd3⟩ := visit_decomp L hwfL p (.list xs) hL (by simp)
  have hnd : ∀ pv ∈ visitDict L, ∀ es, pv.2 ≠ Node.dict es := visitDict_val_nondict L
  rw [applyLayer, hd1, List.foldlM_append] at h
  obtain ⟨mid, hmid, h2⟩ := except_bind_ok _ _ _ h
  have hfr1 := foldPairs_frame p l1 acc mid hwfa
    (fun pv hpv => ⟨hd2 pv hpv, hnd pv (by rw [hd1]; exact List.mem_append.2 (Or.inl hpv))⟩)
    hmid
  obtain ⟨mid2, hstep, h3⟩ := foldlM_cons_ok _ _ _ _ _ h2
  have hmidget : getPath mid p = some (.list ys) := by rw [hfr1.1, hacc]
  have hp : p ≠ [] := by
    intro e
    rw [e] at hacc
    simp [getPath] at hacc
  rw [show mergeNodePath mid (p, Node.list xs).1 (p, Node.list xs).2 =
    mergeNodePath mid p (.list xs) from rfl,
    mergeNodePath_list_append mid p ys xs hmidget] at hstep
  have hmid2 : mid2 = setLeaf (eppTree mid p) p (.list (ys ++ xs)) :=
    (Except.ok.inj hstep).symm
  have hmid2get : getPath mid2 p = some (.list (ys ++ xs)) := by
    rw [hmid2]
    exact getPath_setLeaf_self p mid hp (.list (ys ++ xs))
  have hwfmid2 : wfE mid2 = true := by
    refine wfE_mergeNodePath mid p (.list xs) mid2 hfr1.2 (by simp [wfV]) ?_
    rw [mergeNodePath_list_append mid p ys xs hmidget, hmid2]
  have hfr2 := foldPairs_frame p l2 mid2 acc' hwfmid2
    (fun pv hpv => ⟨hd3 pv hpv, hnd pv (by rw [hd1]; simp [hpv])⟩) h3
  rw [hfr2.1, hmid2get]
  exact ⟨rfl, hfr2.2⟩

theorem merge_layers_cons (head : Entries) (tail : List Entries) :
    merge_layers (head :: tail) =
      (match tail.foldlM applyLayer head with
       | .ok c => .ok (pruneMissing c)
       | .error e => .error e) := by
  show (do
    let current ← tail.foldlM applyLayer (copy head)
    pure (pruneMissing current) : Except String Entries) = _
  rw [show copy head = head from rfl]
  cases h : tail.foldlM applyLayer head with
  | error e => rfl
  | ok c => rfl

theorem getPath_cutoff_empty (q : NodePath) (t : Entries) (p : NodePath)
    (hlt : pathLt q p = true) (hq : getPath t q = some (.dict [])) :
    getPath t p = none := by
  induction q generalizing t p with
  | nil => simp [getPath] at hq
  | cons k q' ih =>
    cases p with
    | nil => simp [pathLt, pathLe] at hlt
    | cons j p' =>
      have hjk : k = j := by
        by_contra hne
        simp [pathLt, pathLe, hne] at hlt
      subst hjk
      rw [pathLt_cons] at hlt
      cases q' with
      | nil =>
        simp only [getPath] at hq
        cases p' with
        | nil => simp [pathLt, pathLe] at hlt
        | cons a as =>
          rw [getPath_cons_dict t k (a :: as) [] hq (by simp)]
          cases as <;> simp [getPath, alistGet]
      | cons r rs =>
        cases p' with
        | nil => simp [pathLt, pathLe] at hlt
        | cons a as =>
          rcases hg : alistGet t k with _ | v
          · exact getPath_cons_none t k (a :: as) hg (by simp)
          · cases v with
            | dict es =>
                rw [getPath_cons_dict t k (r :: rs) es hg (by simp)] at hq
                rw [getPath_cons_dict t k (a :: as) es hg (by simp)]
                exact ih es (a :: as) hlt hq
            | scalar s2 => exact getPath_cons_nondict t k (a :: as) _ hg (by simp) (by simp)
            | missing => exact getPath_cons_nondict t k (a :: as) _ hg (by simp) (by simp)
            | list xs => exact getPath_cons_nondict t k (a :: as) _ hg (by simp) (by simp)

theorem foldLayers_inv (p : NodePath) (tail : List Entries) (acc c : Entries)
    (hwfa : wfE acc = true)
    (htail : ∀ L ∈ tail, wfE L = true ∧
      (getPath L p = none ∨ getPath L p = some .missing))
    (hInv : getPath acc p = none ∨ getPath acc p = some .missing)
    (h : tail.foldlM applyLayer acc = .ok c) :
    (getPath c p = none ∨ getPath c p = some .missing) ∧ wfE c = true := by
  induction tail generalizing acc with
  | nil =>
    rw [show (([] : List Entries).foldlM applyLayer acc) = Except.ok acc from rfl] at h
    cases h
    exact ⟨hInv, hwfa⟩
  | cons L rest ih =>
    obtain ⟨mid, h1, h2⟩ := foldlM_cons_ok applyLayer L rest acc c h
    obtain ⟨hstep, hwfm⟩ := applyLayer_inv p acc L mid hwfa (htail L (by simp)).1
      (htail L (by simp)).2 hInv h1
    exact ih mid hwfm (fun L2 hL2 => htail L2 (by simp [hL2])) hstep h2

theorem foldLayers_append (p : NodePath) (tail : List Entries) (xstl : List (List Node))
    (acc c : Entries) (ys : List Node)
    (hwfa : wfE acc = true)
    (hwft : ∀ L ∈ tail, wfE L = true)
    (hall : List.Forall₂ (fun L xs => getPath L p = some (.list xs)) tail xstl)
    (hacc : getPath acc p = some (.list ys))
    (h : tail.foldlM applyLayer acc = .ok c) :
    getPath c p = some (.list (ys ++ xstl.flatten)) ∧ wfE c = true := by
  induction hall generalizing acc ys with
  | nil =>
    rw [show (([] : List Entries).foldlM applyLayer acc) = Except.ok acc from rfl] at h
    cases h
    simpa [hacc]
  | cons hL hrest ih =>
    rename_i L xs tail2 xstl2
    obtain ⟨mid, h1, h2⟩ := foldlM_cons_ok applyLayer L tail2 acc c h
    obtain ⟨hmid, hwfm⟩ := applyLayer_list_append p acc L mid xs ys hwfa
      (hwft L (by simp)) hL hacc h1
    have := ih mid (ys ++ xs) hwfm (fun L2 hL2 => hwft L2 (by simp [hL2])) hmid h2
    simpa using this

/-- C1 counterexample: a list at `a` in the first layer and a scalar at `a` in
a later layer do not raise — the scalar silently overwrites the list. -/
theorem c1_counterexample :
    merge_layers [[("a", Node.list [Node.scalar (Scal.int 1)])],
      [("a", Node.scalar (Scal.int 2))]] = .ok [("a", Node.scalar (Scal.int 2))] := by
  simp [merge_layers_cons, applyLayer, visitDict, List.foldlM, mergeNodePath, eppTree,
    getPath, setLeaf, alistGet, alistSet, pruneMissing]

/-- C1 (amended): the type conflict is one-directional — a merge step raises
(naming the full dotted path) exactly when the incoming value is a list and
the accumulator currently holds a non-list, non-`MISSING` value at that path;
a later non-list value over a list overwrites silently. -/
theorem c1_conflict_one_directional (t : Entries) (p : NodePath) (v : Node) (e : String) :
    mergeNodePath t p v = .error e ↔
      ((∃ xs, v = .list xs) ∧
       (∃ w, getPath (eppTree t p) p = some w ∧ (∀ ys, w ≠ .list ys) ∧ w ≠ .missing) ∧
       e = conflictMsg p) :=
  mergeNodePath_error_char t p v e

/-- C2 counterexample: the Marker in a later layer is a no-op, so it does not
delete the value an earlier layer stored at the same path — the claim's
"merged tree has no entry at `p`" fails. -/
theorem c2_counterexample :
    merge_layers [[("a", Node.scalar (Scal.int 1))], [("a", Node.missing)]] =
      .ok [("a", Node.scalar (Scal.int 1))] ∧
    getPath [("a", Node.scalar (Scal.int 1))] ["a"] = some (Node.scalar (Scal.int 1)) := by
  constructor
  · simp [merge_layers_cons, applyLayer, visitDict, List.foldlM, mergeNodePath, eppTree,
      getPath, setLeaf, alistGet, alistSet, pruneMissing]
  · simp [getPath, alistGet]

/-- C2 (amended): if some layer stores the Absence Marker at `p` and no other
layer — earlier ones included — stores anything at `p` or under a descendant
of `p`, the merged tree has no entry at `p`. -/
theorem c2_marker_prunes (layers : List Entries) (i : Nat) (hi : i < layers.length)
    (p : NodePath) (r : Entries)
    (hwf : ∀ L ∈ layers, wfE L = true)
    (hmark : getPath (layers.get ⟨i, hi⟩) p = some .missing)
    (hothers : ∀ j, (hj : j < layers.length) → j ≠ i →
      getPath (layers.get ⟨j, hj⟩) p = none)
    (hok : merge_layers layers = .ok r) :
    getPath r p = none := by
  have hall : ∀ L ∈ layers, getPath L p = none ∨ getPath L p = some .missing := by
    intro L hL
    obtain ⟨n, hn⟩ := List.mem_iff_get.1 hL
    by_cases hni : n.1 = i
    · right
      rw [← hn]
      have : (⟨n.1, n.2⟩ : Fin layers.length) = ⟨i, hi⟩ := Fin.ext hni
      rw [show n = ⟨n.1, n.2⟩ from rfl, this]
      exact hmark
    · left
      rw [← hn]
      exact hothers n.1 n.2 hni
  cases layers with
  | nil => simp [merge_layers] at hok
  | cons head tail =>
    rw [merge_layers_cons] at hok
    cases hfold : tail.foldlM applyLayer head with
    | error e =>
      rw [hfold] at hok
      simp at hok
    | ok c =>
      rw [hfold] at hok
      simp at hok
      obtain ⟨hc, hwfc⟩ := foldLayers_inv p tail head c
        (hwf head (by simp))
        (fun L hL => ⟨hwf L (by simp [hL]), hall L (by simp [hL])⟩)
        (hall head (by simp)) hfold
      rw [← hok]
      exact getPath_prune_inv p c hwfc hc

/-- C3 (confirmed): when every layer supplies a list at `p`, the merged value
at `p` is the concatenation of the per-layer lists in layer order, duplicates
retained, order preserved. -/
theorem c3_lists_concatenate (layers : List Entries) (xss : List (List Node))
    (p : NodePath) (r : Entries)
    (hwf : ∀ L ∈ layers, wfE L = true)
    (hall : List.Forall₂ (fun L xs => getPath L p = some (.list xs)) layers xss)
    (hok : merge_layers layers = .ok r) :
    getPath r p = some (.list xss.flatten) := by
  cases hall with
  | nil => simp [merge_layers] at hok
  | cons hL hrest =>
    rename_i head xs0 tail xstl
    rw [merge_layers_cons] at hok
    cases hfold : tail.foldlM applyLayer head with
    | error e =>
      rw [hfold] at hok
      simp at hok
    | ok c =>
      rw [hfold] at hok
      simp at hok
      obtain ⟨hc, hwfc⟩ := foldLayers_append p tail xstl head c xs0
        (hwf head (by simp)) (fun L hL => hwf L (by simp [hL])) hrest hL hfold
      rw [← hok]
      simpa using getPath_prune_list p c _ hc

/-- C5 counterexample: applying a Marker at the nested path `a.b` to an empty
accumulator creates the intermediate mapping `a` — the accumulator is not left
exactly unchanged. -/
theorem c5_counterexample :
    mergeNodePath [] ["a", "b"] Node.missing ≠ .ok [] := by
  simp [mergeNodePath, eppTree, subOf, alistGet, alistSet]

/-- C5 (amended): a Marker value never writes the leaf: applying
`(path, MISSING)` returns exactly the accumulator after `ensure_path_prefix`,
so single-segment paths are pure no-ops, while multi-segment paths still
materialize the prefix mappings (overwriting non-mapping prefix values). -/
theorem c5_marker_writes_no_leaf (t : Entries) (p : NodePath) :
    mergeNodePath t p Node.missing = .ok (eppTree t p) := rfl

/-- C6 counterexample: an empty mapping in a later layer does not overwrite —
the merged tree keeps the scalar, never holding `{}` at `p`. -/
theorem c6_counterexample :
    ¬ (∃ r, merge_layers [[("p", Node.scalar (Scal.int 5))], [("p", Node.dict [])]] =
        .ok r ∧ getPath r ["p"] = some (Node.dict [])) := by
  rintro ⟨r, hr, hg⟩
  have hm : merge_layers [[("p", Node.scalar (Scal.int 5))], [("p", Node.dict [])]] =
      .ok [("p", Node.scalar (Scal.int 5))] := by
    simp [merge_layers_cons, applyLayer, visitDict, List.foldlM, pruneMissing,
      except_pure_eq, except_ok_bind]
  rw [hm] at hr
  cases hr
  simp [getPath, alistGet] at hg

/-- C6 (amended): an empty mapping in a later layer is not a leaf — the
traversal yields nothing at or beneath it, so applying the layer leaves the
accumulator's value at that path exactly unchanged (it never overwrites). -/
theorem c6_empty_mapping_contributes_nothing (p : NodePath) (acc L acc' : Entries)
    (hwfa : wfE acc = true) (hwfL : wfE L = true)
    (hL : getPath L p = some (Node.dict []))
    (h : applyLayer acc L = .ok acc') :
    getPath acc' p = getPath acc p := by
  have hpairs : ∀ pv ∈ visitDict L, pathApart p pv.1 = true ∧
      (∀ es, pv.2 ≠ Node.dict es) := by
    intro pv hpv
    refine ⟨?_, visitDict_val_nondict L pv hpv⟩
    have hsound := visitDict_sound L hwfL pv hpv
    rcases hle : pathLe p pv.1 with _ | _
    · rcases hle2 : pathLe pv.1 p with _ | _
      · simp [pathApart, hle, hle2]
      · exfalso
        have hlt : pathLt pv.1 p = true := pathLt_of_le_not_le pv.1 p hle2 hle
        have := getPath_cutoff pv.1 L p pv.2 hlt hsound
          (visitDict_val_nondict L pv hpv)
        rw [this] at hL
        exact absurd hL (by simp)
    · exfalso
      by_cases heq : pv.1 = p
      · rw [heq] at hsound
        rw [hL] at hsound
        exact visitDict_val_nondict L pv hpv [] (Option.some.inj hsound).symm
      · have hnle : pathLe pv.1 p = false := by
          rcases hx : pathLe pv.1 p with _ | _
          · rfl
          · exact absurd (pathLe_antisymm pv.1 p hx hle) heq
        have hlt : pathLt p pv.1 = true := pathLt_of_le_not_le p pv.1 hle hnle
        have := getPath_cutoff_empty p L pv.1 hlt hL
        rw [this] at hsound
        exact absurd hsound (by simp)
  exact (foldPairs_frame p (visitDict L) acc acc' hwfa hpairs h).1

/-- C6 amended-theorem witness at a concrete input: layer `{"p": {}}` over
accumulator `{"p": 5}` leaves the value at `p` equal to `5`. -/
theorem c6_witness :
    getPath [("p", Node.scalar (Scal.int 5))] ["p"] = some (Node.scalar (Scal.int 5)) := by
  have happ : applyLayer [("p", Node.scalar (Scal.int 5))] [("p", Node.dict [])] =
      .ok [("p", Node.scalar (Scal.int 5))] := by
    simp [applyLayer, visitDict, List.foldlM, except_pure_eq, except_ok_bind]
  have := c6_empty_mapping_contributes_nothing ["p"]
    [("p", Node.scalar (Scal.int 5))] [("p", Node.dict [])]
    [("p", Node.scalar (Scal.int 5))]
    (by simp [wfE, wfV, keyMemB]) (by simp [wfE, wfV, keyMemB])
    (by simp [getPath, alistGet]) happ
  exact this.trans (by simp [getPath, alistGet])

/-- C10 (confirmed): the final sweep never descends into sequences — a list
value survives verbatim at its path, markers inside included, both directly
and inside mappings stored as list elements; and end to end through
`merge_layers`. -/
theorem c10_prune_skips_lists :
    (∀ (t : Entries) (p : NodePath) (xs : List Node),
      getPath t p = some (.list xs) → getPath (pruneMissing t) p = some (.list xs)) ∧
    merge_layers [[("a", Node.list [Node.missing, Node.dict [("b", Node.missing)]])]] =
      .ok [("a", Node.list [Node.missing, Node.dict [("b", Node.missing)]])] := by
  constructor
  · intro t p xs h
    exact getPath_prune_list p t xs h
  · simp [merge_layers_cons, List.foldlM, pruneMissing, except_pure_eq, except_ok_bind]

/-- C10 witness: the universal conjunct applied at a concrete tree holding a
marker inside a list. -/
theorem c10_witness :
    getPath (pruneMissing [("a", Node.list [Node.missing])]) ["a"] =
      some (Node.list [Node.missing]) :=
  c10_prune_skips_lists.1 [("a", Node.list [Node.missing])] ["a"] [Node.missing]
    (by simp [getPath, alistGet])

/-- C2 amended-theorem witness: the single layer `{"a": MISSING}` merges to a
tree with no entry at `a`. -/
theorem c2_witness : getPath ([] : Entries) ["a"] = none :=
  c2_marker_prunes [[("a", Node.missing)]] 0 (by simp) ["a"] []
    (by
      intro L hL
      simp only [List.mem_singleton] at hL
      subst hL
      simp [wfE, wfV, keyMemB])
    (by simp [List.get, getPath, alistGet])
    (by
      intro j hj hne
      simp at hj
      exact absurd hj hne)
    (by simp [merge_layers_cons, List.foldlM, pruneMissing, except_pure_eq, except_ok_bind])

/-- C3 witness: merging `{"a": [1]}` with `{"a": [1]}` yields `[1, 1]` at `a`
(duplicates retained). -/
theorem c3_witness :
    getPath [("a", Node.list [Node.scalar (Scal.int 1), Node.scalar (Scal.int 1)])] ["a"] =
      some (Node.list [Node.scalar (Scal.int 1), Node.scalar (Scal.int 1)]) := by
  have := c3_lists_concatenate
    [[("a", Node.list [Node.scalar (Scal.int 1)])], [("a", Node.list [Node.scalar (Scal.int 1)])]]
    [[Node.scalar (Scal.int 1)], [Node.scalar (Scal.int 1)]] ["a"]
    [("a", Node.list [Node.scalar (Scal.int 1), Node.scalar (Scal.int 1)])]
    (by
      intro L hL
      simp at hL
      subst hL
      simp [wfE, wfV, keyMemB])
    (by
      constructor
      · simp [getPath, alistGet]
      · constructor
        · simp [getPath, alistGet]
        · constructor)
    (by simp [merge_layers_cons, applyLayer, visitDict, List.foldlM, mergeNodePath,
      eppTree, subOf, getPath, setLeaf, alistGet, alistSet, pruneMissing, except_pure_eq,
      except_ok_bind])
  simpa using this

/-- Structural induction for `CVal` through the nested lists. -/
theorem cval_ind (P : CVal → Prop)
    (hp : ∀ s, P (.prim s)) (ht : ∀ ty, P (.typeref ty))
    (hi : ∀ ty fields, (∀ f ∈ fields, P f.2) → P (.inst ty fields))
    (hl : ∀ xs, (∀ x ∈ xs, P x) → P (.listv xs))
    (hm : ∀ es, (∀ e ∈ es, P e.2) → P (.mapv es)) : ∀ c, P c
  | .prim s => hp s
  | .typeref ty => ht ty
  | .inst ty fields => hi ty fields (fun f hf => cval_ind P hp ht hi hl hm f.2)
  | .listv xs => hl xs (fun x hx => cval_ind P hp ht hi hl hm x)
  | .mapv es => hm es (fun e he => cval_ind P hp ht hi hl hm e.2)
termination_by c => sizeOf c
decreasing_by
  · have h1 := List.sizeOf_lt_of_mem hf
    have h2 : sizeOf f.2 < sizeOf f := by
      obtain ⟨a, b⟩ := f
      simp <;> omega
    simp <;> omega
  · have := List.sizeOf_lt_of_mem hx
    simp <;> omega
  · have h1 := List.sizeOf_lt_of_mem he
    have h2 : sizeOf e.2 < sizeOf e := by
      obtain ⟨a, b⟩ := e
      simp <;> omega
    simp <;> omega

theorem visitConfigFields_mem (reg : List Nat) (fs : List (String × CVal)) :
    ∀ n ∈ visitConfigFields reg fs, ∃ f ∈ fs, n ∈ visitConfig reg f.2 := by
  induction fs with
  | nil => simp [visitConfigFields]
  | cons f rest ih =>
    obtain ⟨k, c⟩ := f
    intro n hn
    rw [visitConfigFields] at hn
    rcases List.mem_append.1 hn with hm | hm
    · exact ⟨(k, c), by simp, hm⟩
    · obtain ⟨f2, hf2, hm2⟩ := ih n hm
      exact ⟨f2, by simp [hf2], hm2⟩

theorem visitConfigList_mem (reg : List Nat) (xs : List CVal) :
    ∀ n ∈ visitConfigList reg xs, ∃ x ∈ xs, n ∈ visitConfig reg x := by
  induction xs with
  | nil => simp [visitConfigList]
  | cons x rest ih =>
    intro n hn
    rw [visitConfigList] at hn
    rcases List.mem_append.1 hn with hm | hm
    · exact ⟨x, by simp, hm⟩
    · obtain ⟨x2, hx2, hm2⟩ := ih n hm
      exact ⟨x2, by simp [hx2], hm2⟩

/-- Everything `_visit_config` yields satisfies the `assert` in `load_config`:
a dataclass instance (never a class object) whose type is registered. -/
theorem visitConfig_regInst (reg : List Nat) :
    ∀ (c : CVal), ∀ n ∈ visitConfig reg c, isRegInstB reg n = true := by
  intro c
  induction c using cval_ind with
  | hp s => simp [visitConfig]
  | ht ty => simp [visitConfig]
  | hi ty fields ih =>
    intro n hn
    rw [visitConfig] at hn
    rcases List.mem_append.1 hn with hm | hm
    · by_cases hr : reg.contains ty = true
      · rw [if_pos hr] at hm
        simp at hm
        subst hm
        simp only [isRegInstB]
        exact hr
      · rw [if_neg hr] at hm
        simp at hm
    · obtain ⟨f, hf, hm2⟩ := visitConfigFields_mem reg fields n hm
      exact ih f hf n hm2
  | hl xs ih =>
    intro n hn
    rw [visitConfig] at hn
    obtain ⟨x, hx, hm2⟩ := visitConfigList_mem reg xs n hn
    exact ih x hx n hm2
  | hm es ih =>
    intro n hn
    rw [visitConfig] at hn
    obtain ⟨e, he, hm2⟩ := visitConfigFields_mem reg es n hn
    exact ih e he n hm2

/-- When the `assert` never fires, the registration loop succeeds and the
Default Registry is the left fold of `defaults[type(node)] = node`. -/
theorem applyDefaults_ok (reg : List Nat) (ns : List CVal)
    (hall : ∀ n ∈ ns, isRegInstB reg n = true) :
    ∀ dfl, applyDefaults reg dfl ns =
      (none, ns.foldl (fun d n => defSet d (tyOf n) n) dfl) := by
  induction ns with
  | nil => intro dfl; simp [applyDefaults]
  | cons n rest ih =>
    intro dfl
    rw [applyDefaults]
    rw [if_pos (hall n (by simp))]
    rw [ih (fun m hm => hall m (by simp [hm]))]
    simp

/-- C7 (confirmed): every failing `load_config` call — unregistered schema,
merge failure, or deserialization failure — leaves the Default Registry
exactly as it was; the registration loop runs only after all failure points
and its own `assert` can never fire. -/
theorem c7_no_partial_success (reg : List Nat) (dfl : List (Nat × CVal))
    (des : Nat → Entries → Except String CVal) (cls : Nat) (args : List Arg)
    (e : String) (dfl2 : List (Nat × CVal))
    (h : load_config reg dfl des cls args = (.error e, dfl2)) : dfl2 = dfl := by
  rw [load_config] at h
  split at h
  · split at h
    · injection h with h1 h2
      exact h2.symm
    · split at h
      · injection h with h1 h2
        exact h2.symm
      · rename_i merged hmerge config hdes
        rw [applyDefaults_ok reg (visitConfig reg config)
          (visitConfig_regInst reg config) dfl] at h
        simp at h
  · injection h with h1 h2
    exact h2.symm

/-- C7 witness: an unregistered schema fails and leaves the registry intact. -/
theorem c7_witness : [(0, CVal.prim Scal.null)] = [(0, CVal.prim Scal.null)] :=
  c7_no_partial_success [] [(0, CVal.prim Scal.null)] (fun _ _ => .error "boom") 0 []
    "First argument of load_config must be a configclass." [(0, CVal.prim Scal.null)] rfl

theorem defGet_set_self (d : List (Nat × CVal)) (ty : Nat) (v : CVal) :
    defGet (defSet d ty v) ty = some v := by
  induction d with
  | nil => simp [defGet, defSet]
  | cons e rest ih =>
    obtain ⟨t, v0⟩ := e
    by_cases h : t = ty
    · simp [defSet, h, defGet]
    · simp [defSet, h, defGet, ih]

theorem defGet_set_other (d : List (Nat × CVal)) (ty ty2 : Nat) (v : CVal)
    (h : ty2 ≠ ty) : defGet (defSet d ty v) ty2 = defGet d ty2 := by
  have h2 : ¬(ty = ty2) := fun e => h e.symm
  induction d with
  | nil => simp [defSet, defGet, h2]
  | cons e rest ih =>
    obtain ⟨t, v0⟩ := e
    by_cases ht : t = ty
    · subst ht
      simp [defSet, defGet, h2]
    · simp [defSet, ht, defGet, ih]

theorem getLast?_cons_some {α : Type} (l : List α) (a m : α)
    (h : l.getLast? = some m) : (a :: l).getLast? = some m := by
  cases l with
  | nil => simp at h
  | cons b bs => rw [List.getLast?_cons_cons]; exact h

theorem getLast?_none {α : Type} (l : List α) (h : l.getLast? = none) : l = [] := by
  cases l with
  | nil => rfl
  | cons b bs => simp [List.getLast?_eq_getLast] at h

/-- Lookup after the registration fold: the last visited instance of a type
wins; untouched types keep their previous default. -/
theorem defGet_foldl (ns : List CVal) :
    ∀ (dfl : List (Nat × CVal)) (T : Nat),
      defGet (ns.foldl (fun d n => defSet d (tyOf n) n) dfl) T =
        (match (ns.filter (fun n => tyOf n == T)).getLast? with
         | some n => some n
         | none => defGet dfl T) := by
  induction ns with
  | nil => intro dfl T; simp
  | cons n rest ih =>
    intro dfl T
    rw [List.foldl_cons]
    rw [ih (defSet dfl (tyOf n) n) T]
    by_cases hT : tyOf n = T
    · rw [List.filter_cons_of_pos (by simp [hT])]
      cases hlast : (rest.filter (fun m => tyOf m == T)).getLast? with
      | some m => rw [getLast?_cons_some _ _ _ hlast]
      | none =>
        rw [getLast?_none _ hlast]
        simp [← hT, defGet_set_self]
    · rw [List.filter_cons_of_neg (by simp [hT])]
      cases hlast : (rest.filter (fun m => tyOf m == T)).getLast? with
      | some m => rfl
      | none => simp [defGet_set_other dfl (tyOf n) T n (fun e => hT e.symm)]

/-- C8 (confirmed): after a successful `load_config`, the returned value is
the deserialization of the merged tree, and for every type with instances in
the visited object graph `get_default_config` returns the last-visited one. -/
theorem c8_defaults_last_visited (reg : List Nat) (dfl : List (Nat × CVal))
    (des : Nat → Entries → Except String CVal) (cls : Nat) (args : List Arg)
    (config : CVal) (dfl2 : List (Nat × CVal))
    (h : load_config reg dfl des cls args = (.ok config, dfl2)) :
    (∃ merged, merge_layers (flattenArgs args) = .ok merged ∧
      des cls merged = .ok config) ∧
    ∀ (T : Nat) (n : CVal),
      ((visitConfig reg config).filter (fun m => tyOf m == T)).getLast? = some n →
      get_default_config dfl2 T = .ok n := by
  rw [load_config] at h
  split at h
  · split at h
    · exact absurd h (by simp)
    · next merged hmerge =>
        split at h
        · exact absurd h (by simp)
        · next config2 hdes =>
            rw [applyDefaults_ok reg (visitConfig reg config2)
              (visitConfig_regInst reg config2) dfl] at h
            simp at h
            obtain ⟨hcfg, hdfl2⟩ := h
            subst hcfg
            constructor
            · exact ⟨merged, hmerge, hdes⟩
            · intro T n hlast
              rw [get_default_config, ← hdfl2, defGet_foldl, hlast]
  · exact absurd h (by simp)

/-- C8 witness: loading one registered schema records it as the default. -/
theorem c8_witness :
    get_default_config [(0, CVal.inst 0 [])] 0 = .ok (CVal.inst 0 []) := by
  have h : load_config [0] [] (fun _ _ => .ok (CVal.inst 0 [])) 0 [Arg.one []] =
      (.ok (CVal.inst 0 []), [(0, CVal.inst 0 [])]) := by
    simp [load_config, flattenArgs, merge_layers_cons, List.foldlM, pruneMissing,
      except_pure_eq, visitConfig, visitConfigFields, applyDefaults, isRegInstB,
      tyOf, defSet]
  exact (c8_defaults_last_visited [0] [] (fun _ _ => .ok (CVal.inst 0 [])) 0
    [Arg.one []] (CVal.inst 0 []) [(0, CVal.inst 0 [])] h).2 0 (CVal.inst 0 [])
    (by simp [visitConfig, visitConfigFields, tyOf])

theorem splitDotAux_ne_nil (l : List Char) : ∀ cur, splitDotAux l cur ≠ [] := by
  induction l with
  | nil => intro cur; simp [splitDotAux]
  | cons c rest ih =>
    intro cur
    by_cases hc : c = '.'
    · simp [splitDotAux, hc]
    · simp [splitDotAux, hc]
      exact ih (c :: cur)

theorem splitDot_ne_nil (str : String) : splitDot str ≠ [] :=
  splitDotAux_ne_nil str.toList []

theorem pathApart_symm (p q : NodePath) (h : pathApart p q = true) :
    pathApart q p = true := by
  simp [pathApart] at h ⊢
  exact ⟨h.2, h.1⟩

theorem getPath_setAtPath_self (t : Entries) (p : NodePath) (w : Node) (hp : p ≠ []) :
    getPath (setAtPath t p w) p = some w :=
  getPath_setLeaf_self p t hp w

theorem getPath_setAtPath_apart (t : Entries) (p q : NodePath) (w : Node)
    (h : pathApart q p = true) : getPath (setAtPath t p w) q = getPath t q := by
  rw [setAtPath, getPath_setLeaf_apart p (eppTree t p) q w h]
  exact getPath_eppTree p t q (pathApart_not_lt q p h)

theorem strGet_absent_strSet (acc : List (String × String)) (k v : String)
    (h : strGet acc k = none) : strSet acc k v = acc ++ [(k, v)] := by
  induction acc with
  | nil => simp [strSet]
  | cons e rest ih =>
    obtain ⟨k2, v2⟩ := e
    simp only [strGet] at h
    by_cases hk : k2 = k
    · simp [hk] at h
    · simp [hk] at h
      simp [strSet, hk, ih h]

theorem strGet_append_left_none (a b : List (String × String)) (k : String)
    (h : strGet a k = none) : strGet (a ++ b) k = strGet b k := by
  induction a with
  | nil => simp
  | cons e rest ih =>
    obtain ⟨k2, v2⟩ := e
    simp only [strGet] at h
    by_cases hk : k2 = k
    · simp [hk] at h
    · simp [hk] at h
      simp [strGet, hk, ih h]

theorem prefixedMapping_fold (pfx : String) (items : List (String × String)) :
    ∀ acc, (∀ kv ∈ items, strGet acc (pfx ++ strUpper kv.1) = none) →
      (items.map (fun kv => pfx ++ strUpper kv.1)).Nodup →
      items.foldl (fun a kv => strSet a (pfx ++ strUpper kv.1) kv.2) acc =
        acc ++ items.map (fun kv => (pfx ++ strUpper kv.1, kv.2)) := by
  induction items with
  | nil => intro acc _ _; simp
  | cons kv rest ih =>
    intro acc habs hnd
    rw [List.foldl_cons]
    rw [strGet_absent_strSet acc (pfx ++ strUpper kv.1) kv.2 (habs kv (by simp))]
    simp only [List.map_cons, List.nodup_cons] at hnd
    rw [ih (acc ++ [(pfx ++ strUpper kv.1, kv.2)]) ?_ hnd.2]
    · simp
    · intro b hb
      rw [strGet_append_left_none acc [(pfx ++ strUpper kv.1, kv.2)] (pfx ++ strUpper b.1)
        (habs b (by simp [hb]))]
      have hne : pfx ++ strUpper kv.1 ≠ pfx ++ strUpper b.1 := by
        intro e
        exact hnd.1 (e ▸ List.mem_map_of_mem (fun kv2 => pfx ++ strUpper kv2.1) hb)
      simp [strGet, hne]

/-- With distinct transformed variable names, the prefixed mapping dict
comprehension is just the order-preserving transform of the entries. -/
theorem prefixedMapping_eq_map (pfx : String) (mapping : List (String × String))
    (hnd : (mapping.map (fun kv => pfx ++ strUpper kv.1)).Nodup) :
    prefixedMapping pfx mapping =
      mapping.map (fun kv => (pfx ++ strUpper kv.1, kv.2)) := by
  rw [prefixedMapping]
  rw [prefixedMapping_fold pfx mapping [] (by intro kv _; rfl) hnd]
  simp

theorem getPath_nil (p : NodePath) : getPath ([] : Entries) p = none := by
  cases p with
  | nil => simp [getPath]
  | cons a as => cases as <;> simp [getPath, alistGet]

theorem c9_frame (envU : List (String × String)) (items : List (String × String))
    (p : NodePath) :
    ∀ res, (∀ kv ∈ items, pathApart p (splitDot kv.2) = true) →
    getPath (items.foldl (fun t vp =>
      match strGet envU vp.1 with
      | none => t
      | some v2 => setAtPath t (splitDot vp.2) (.scalar (.str v2))) res) p =
      getPath res p := by
  induction items with
  | nil => intro res _; rfl
  | cons it rest ih =>
    intro res hap
    rw [List.foldl_cons]
    rw [ih _ (fun kv hk => hap kv (by simp [hk]))]
    cases hg : strGet envU it.1 with
    | none => rfl
    | some v2 =>
      exact getPath_setAtPath_apart res (splitDot it.2) p _ (hap it (by simp))

theorem c9_fold (envU : List (String × String)) (items : List (String × String)) :
    ∀ res, List.Pairwise (fun a b => pathApart (splitDot a.2) (splitDot b.2) = true) items →
    ∀ kv ∈ items,
      (∀ v, strGet envU kv.1 = some v →
        getPath (items.foldl (fun t vp =>
          match strGet envU vp.1 with
          | none => t
          | some v2 => setAtPath t (splitDot vp.2) (.scalar (.str v2))) res)
          (splitDot kv.2) = some (.scalar (.str v))) ∧
      (strGet envU kv.1 = none →
        getPath (items.foldl (fun t vp =>
          match strGet envU vp.1 with
          | none => t
          | some v2 => setAtPath t (splitDot vp.2) (.scalar (.str v2))) res)
          (splitDot kv.2) = getPath res (splitDot kv.2)) := by
  induction items with
  | nil => intro res _ kv hkv; simp at hkv
  | cons it rest ih =>
    intro res hpw kv hkv
    rw [List.pairwise_cons] at hpw
    rw [List.foldl_cons]
    rcases List.mem_cons.1 hkv with rfl | hmem
    · have hframe := c9_frame envU rest (splitDot kv.2)
      constructor
      · intro v hv
        rw [hframe _ (fun b hb => hpw.1 b hb)]
        rw [hv]
        exact getPath_setAtPath_self res (splitDot kv.2) _ (splitDot_ne_nil kv.2)
      · intro hv
        rw [hframe _ (fun b hb => hpw.1 b hb)]
        rw [hv]
    · have hit : pathApart (splitDot kv.2) (splitDot it.2) = true :=
        pathApart_symm _ _ (hpw.1 kv hmem)
      constructor
      · intro v hv
        exact ((ih _ hpw.2 kv hmem).1 v hv)
      · intro hv
        rw [(ih _ hpw.2 kv hmem).2 hv]
        cases hg : strGet envU it.1 with
        | none => rfl
        | some v2 => exact getPath_setAtPath_apart res (splitDot it.2) _ _ hit

/-- C9 (confirmed): the environment fragment source matches variable names
case-insensitively after applying the prefix, places each matched variable's
string value at its mapped dotted path, and yields no entry and no error for
mapped variables absent from the environment. -/
theorem c9_env_fragment (mapping : List (String × String)) (pfx : String)
    (env : List (String × String)) (des : Nat → Entries → Except String CVal)
    (hkeys : (mapping.map (fun kv => pfx ++ strUpper kv.1)).Nodup)
    (hpw : List.Pairwise (fun a b => pathApart (splitDot a.2) (splitDot b.2) = true) mapping) :
    ∃ r, load_env none mapping none false pfx env des = .ok r ∧
      ∀ kv ∈ mapping,
        (∀ v, strGet (upperEnv env) (pfx ++ strUpper kv.1) = some v →
          getPath r (splitDot kv.2) = some (.scalar (.str v))) ∧
        (strGet (upperEnv env) (pfx ++ strUpper kv.1) = none →
          getPath r (splitDot kv.2) = none) := by
  refine ⟨_, rfl, ?_⟩
  intro kv hkv
  rw [prefixedMapping_eq_map pfx mapping hkeys]
  have hpw2 : List.Pairwise
      (fun (a b : String × String) => pathApart (splitDot a.2) (splitDot b.2) = true)
      (mapping.map (fun kv => (pfx ++ strUpper kv.1, kv.2))) := by
    refine List.Pairwise.map _ ?_ hpw
    intro a b hab
    exact hab
  have hmem : (pfx ++ strUpper kv.1, kv.2) ∈
      mapping.map (fun kv => (pfx ++ strUpper kv.1, kv.2)) :=
    List.mem_map_of_mem _ hkv
  have := c9_fold (upperEnv env) (mapping.map (fun kv => (pfx ++ strUpper kv.1, kv.2)))
    [] hpw2 (pfx ++ strUpper kv.1, kv.2) hmem
  constructor
  · intro v hv
    exact this.1 v hv
  · intro hv
    rw [this.2 hv]
    exact getPath_nil _

/-- C9 witness: the spec's example — prefix `APP_`, mapping
`{"HOST": "web.host", "PORT": "web.port"}`, environment `APP_HOST=127.0.0.1`,
`APP_PORT=8080` — satisfies the theorem's hypotheses, and the fragment is
exactly `{"web": {"host": "127.0.0.1", "port": "8080"}}`. -/
theorem c9_witness :
    (∃ r, load_env none [("HOST", "web.host"), ("PORT", "web.port")] none false "APP_"
        [("APP_HOST", "127.0.0.1"), ("APP_PORT", "8080")] (fun _ _ => .error "unused") =
        .ok r ∧
      ∀ kv ∈ [("HOST", "web.host"), ("PORT", "web.port")],
        (∀ v, strGet (upperEnv [("APP_HOST", "127.0.0.1"), ("APP_PORT", "8080")])
            ("APP_" ++ strUpper kv.1) = some v →
          getPath r (splitDot kv.2) = some (.scalar (.str v))) ∧
        (strGet (upperEnv [("APP_HOST", "127.0.0.1"), ("APP_PORT", "8080")])
            ("APP_" ++ strUpper kv.1) = none →
          getPath r (splitDot kv.2) = none)) ∧
    load_env none [("HOST", "web.host"), ("PORT", "web.port")] none false "APP_"
        [("APP_HOST", "127.0.0.1"), ("APP_PORT", "8080")] (fun _ _ => .error "unused") =
      .ok [("web", Node.dict [("host", Node.scalar (Scal.str "127.0.0.1")),
        ("port", Node.scalar (Scal.str "8080"))])] :=
  ⟨c9_env_fragment [("HOST", "web.host"), ("PORT", "web.port")] "APP_"
      [("APP_HOST", "127.0.0.1"), ("APP_PORT", "8080")] (fun _ _ => .error "unused")
      (by decide) (by decide),
   rfl⟩

theorem alistGet_some_mem_keys (es : Entries) (k : String) (v : Node)
    (h : alistGet es k = some v) : k ∈ es.map Prod.fst := by
  induction es with
  | nil => simp [alistGet] at h
  | cons e rest ih =>
    obtain ⟨k2, v2⟩ := e
    simp only [alistGet] at h
    by_cases hk : k2 = k
    · simp [hk]
    · simp [hk] at h
      simp [ih h]

theorem alistGet_mem (es : Entries) (k : String) (v : Node)
    (h : alistGet es k = some v) : (k, v) ∈ es := by
  induction es with
  | nil => simp [alistGet] at h
  | cons e rest ih =>
    obtain ⟨k2, v2⟩ := e
    simp only [alistGet] at h
    by_cases hk : k2 = k
    · subst hk
      simp at h
      simp [h]
    · simp [hk] at h
      simp [ih h]

theorem nequiv_dict_eq_dequiv (a b : Entries) :
    nequiv (.dict a) (.dict b) = dequiv a b := by
  simp [nequiv, dequiv]

theorem dequivOn_refl (a : Entries) (h : ∀ e ∈ a, nequiv e.2 e.2 = true) :
    ∀ ks, dequivOn ks a a = true := by
  intro ks
  induction ks with
  | nil => simp [dequivOn]
  | cons k ks ih =>
    rw [dequivOn, Bool.and_eq_true]
    refine ⟨?_, ih⟩
    cases hg : alistGet a k with
    | none => simp [onequiv]
    | some v =>
      rw [show onequiv (some v) (some v) = nequiv v v from by simp [onequiv]]
      exact h (k, v) (alistGet_mem a k v hg)

theorem nequiv_refl : ∀ n, nequiv n n = true := by
  intro n
  induction n using node_ind with
  | hs s => simp [nequiv]
  | hm => simp [nequiv]
  | hl xs ih =>
    rw [show nequiv (.list xs) (.list xs) = lequiv xs xs from by simp [nequiv]]
    induction xs with
    | nil => simp [lequiv]
    | cons x rest ihx =>
      rw [lequiv, Bool.and_eq_true]
      exact ⟨ih x (by simp), ihx (fun y hy => ih y (by simp [hy]))⟩
  | hd es ih =>
    rw [nequiv_dict_eq_dequiv]
    exact dequivOn_refl es ih _

theorem lequiv_refl (xs : List Node) : lequiv xs xs = true := by
  induction xs with
  | nil => simp [lequiv]
  | cons x rest ih =>
    rw [lequiv, Bool.and_eq_true]
    exact ⟨nequiv_refl x, ih⟩

theorem dequiv_refl (a : Entries) : dequiv a a = true := by
  rw [← nequiv_dict_eq_dequiv]
  exact nequiv_refl (.dict a)

theorem lequiv_append (ys1 ys2 xs : List Node) (h : lequiv ys1 ys2 = true) :
    lequiv (ys1 ++ xs) (ys2 ++ xs) = true := by
  induction ys1 generalizing ys2 with
  | nil =>
    cases ys2 with
    | nil => simpa using lequiv_refl xs
    | cons b bs => simp [lequiv] at h
  | cons a as ih =>
    cases ys2 with
    | nil => simp [lequiv] at h
    | cons b bs =>
      rw [lequiv, Bool.and_eq_true] at h
      rw [List.cons_append, List.cons_append, lequiv, Bool.and_eq_true]
      exact ⟨h.1, ih bs h.2⟩

theorem dequivOn_mem (ks : List String) (a b : Entries) (k : String)
    (hd : dequivOn ks a b = true) (hk : k ∈ ks) :
    onequiv (alistGet a k) (alistGet b k) = true := by
  induction ks with
  | nil => simp at hk
  | cons k2 ks ih =>
    rw [dequivOn, Bool.and_eq_true] at hd
    rcases List.mem_cons.1 hk with rfl | hk2
    · exact hd.1
    · exact ih hd.2 hk2

/-- Pointwise elimination of Python dict equality. -/
theorem dequiv_elim (a b : Entries) (h : dequiv a b = true) (k : String) :
    onequiv (alistGet a k) (alistGet b k) = true := by
  by_cases hk : k ∈ a.map Prod.fst ++ b.map Prod.fst
  · exact dequivOn_mem _ a b k h hk
  · have ha : alistGet a k = none := by
      cases hg : alistGet a k with
      | none => rfl
      | some v =>
        exact absurd (List.mem_append.2 (Or.inl (alistGet_some_mem_keys a k v hg))) hk
    have hb : alistGet b k = none := by
      cases hg : alistGet b k with
      | none => rfl
      | some v =>
        exact absurd (List.mem_append.2 (Or.inr (alistGet_some_mem_keys b k v hg))) hk
    simp [ha, hb, onequiv]

/-- Pointwise introduction of Python dict equality. -/
theorem dequiv_intro (a b : Entries)
    (h : ∀ k, onequiv (alistGet a k) (alistGet b k) = true) : dequiv a b = true := by
  rw [dequiv]
  generalize a.map Prod.fst ++ b.map Prod.fst = ks
  induction ks with
  | nil => simp [dequivOn]
  | cons k ks ih =>
    rw [dequivOn, Bool.and_eq_true]
    exact ⟨h k, ih⟩

/-- On a well-formed tree, looking up in the pruned tree is `pruneOpt` of the
original lookup. -/
theorem alistGet_prune (t : Entries) (k : String) (hwf : wfE t = true) :
    alistGet (pruneMissing t) k = pruneOpt (alistGet t k) := by
  cases hg : alistGet t k with
  | none => simpa [pruneOpt] using alistGet_prune_none t k hg
  | some v =>
    cases v with
    | missing => simpa [pruneOpt] using alistGet_prune_missing t k hwf hg
    | scalar s => simpa [pruneOpt] using alistGet_prune_scalar t k s hg
    | list xs => simpa [pruneOpt] using alistGet_prune_list t k xs hg
    | dict es => simpa [pruneOpt] using alistGet_prune_dict t k es hg

/-- Pointwise elimination of `RelP`. -/
theorem RelP_elim (a b : Entries) (hwa : wfE a = true) (hwb : wfE b = true)
    (h : RelP a b) (k : String) :
    onequiv (pruneOpt (alistGet a k)) (pruneOpt (alistGet b k)) = true := by
  have := dequiv_elim _ _ h k
  rwa [alistGet_prune a k hwa, alistGet_prune b k hwb] at this

/-- Pointwise introduction of `RelP`. -/
theorem RelP_intro (a b : Entries) (hwa : wfE a = true) (hwb : wfE b = true)
    (h : ∀ k, onequiv (pruneOpt (alistGet a k)) (pruneOpt (alistGet b k)) = true) :
    RelP a b := by
  refine dequiv_intro _ _ ?_
  intro k
  rw [alistGet_prune a k hwa, alistGet_prune b k hwb]
  exact h k

theorem RelP_refl (a : Entries) : RelP a a := dequiv_refl _

/-- Pruning changes nothing up to Python `==`: the pruned accumulator is
interchangeable with the original. -/
theorem RelP_prune (a : Entries) : RelP a (pruneMissing a) := by
  rw [RelP, prune_idem]
  exact dequiv_refl _

theorem except_error_bind {α β : Type} (e : String) (f : α → Except String β) :
    ((Except.error e : Except String α) >>= f) = Except.error e := rfl

theorem RelP_set (t1 t2 : Entries) (k : String) (v1 v2 : Node)
    (hw1 : wfE t1 = true) (hw2 : wfE t2 = true)
    (hv1 : wfV v1 = true) (hv2 : wfV v2 = true)
    (hrel : RelP t1 t2)
    (hvv : onequiv (pruneOpt (some v1)) (pruneOpt (some v2)) = true) :
    RelP (alistSet t1 k v1) (alistSet t2 k v2) := by
  refine RelP_intro _ _ (wfE_alistSet t1 k v1 hw1 hv1) (wfE_alistSet t2 k v2 hw2 hv2) ?_
  intro k2
  by_cases hk : k2 = k
  · subst hk
    rw [alistGet_set_self, alistGet_set_self]
    exact hvv
  · rw [alistGet_set_other _ _ _ _ hk, alistGet_set_other _ _ _ _ hk]
    exact RelP_elim t1 t2 hw1 hw2 hrel k2

theorem mergeNodePath_single (t : Entries) (k : String) (v : Node) :
    mergeNodePath t [k] v =
      (match v with
       | .missing => .ok t
       | .list xs =>
           (match alistGet t k with
            | some (.list ys) => .ok (alistSet t k (.list (ys ++ xs)))
            | some .missing => .ok (alistSet t k (.list xs))
            | none => .ok (alistSet t k (.list xs))
            | some _ => .error (conflictMsg [k]))
       | v => .ok (alistSet t k v)) := by
  cases v with
  | missing => simp [mergeNodePath, eppTree]
  | scalar s => simp [mergeNodePath, eppTree, setLeaf]
  | dict es => simp [mergeNodePath, eppTree, setLeaf]
  | list xs =>
    rcases hg : alistGet t k with _ | w
    · simp [mergeNodePath, eppTree, getPath, setLeaf, hg]
    · cases w <;> simp [mergeNodePath, eppTree, getPath, setLeaf, hg]

theorem RelP_subOf (t1 t2 : Entries) (k : String)
    (hw1 : wfE t1 = true) (hw2 : wfE t2 = true) (hrel : RelP t1 t2) :
    RelP (subOf t1 k) (subOf t2 k) ∧ wfE (subOf t1 k) = true ∧
      wfE (subOf t2 k) = true := by
  have h := RelP_elim t1 t2 hw1 hw2 hrel k
  simp only [subOf]
  rcases hg1 : alistGet t1 k with _ | w1 <;> rcases hg2 : alistGet t2 k with _ | w2
  · exact ⟨RelP_refl [], by simp [wfE], by simp [wfE]⟩
  · rw [hg1, hg2] at h
    cases w2 <;> simp [pruneOpt, onequiv] at h
    exact ⟨RelP_refl [], by simp [wfE], by simp [wfE]⟩
  · rw [hg1, hg2] at h
    cases w1 <;> simp [pruneOpt, onequiv] at h
    exact ⟨RelP_refl [], by simp [wfE], by simp [wfE]⟩
  · rw [hg1, hg2] at h
    cases w1 <;> cases w2 <;> simp [pruneOpt, onequiv, nequiv] at h
    · exact ⟨RelP_refl [], by simp [wfE], by simp [wfE]⟩
    · exact ⟨RelP_refl [], by simp [wfE], by simp [wfE]⟩
    · exact ⟨RelP_refl [], by simp [wfE], by simp [wfE]⟩
    · exact ⟨h, wfE_get_dict t1 k _ hw1 hg1, wfE_get_dict t2 k _ hw2 hg2⟩

/-- The merge step cannot tell apart two accumulators whose pruned trees are
Python-`==`: results fail together with the same message or stay related. -/
theorem sim_mergeNodePath (p : NodePath) :
    ∀ (v : Node) (t1 t2 : Entries), wfE t1 = true → wfE t2 = true → wfV v = true →
      RelP t1 t2 → exRel RelP (mergeNodePath t1 p v) (mergeNodePath t2 p v) := by
  induction p with
  | nil =>
    intro v t1 t2 _ _ _ hrel
    rw [mergeNodePath_nil, mergeNodePath_nil]
    exact hrel
  | cons k p' ih =>
    intro v t1 t2 hw1 hw2 hv hrel
    cases p' with
    | nil =>
      rw [mergeNodePath_single, mergeNodePath_single]
      cases v with
      | missing => exact hrel
      | scalar s =>
        exact RelP_set t1 t2 k (.scalar s) (.scalar s) hw1 hw2 (by simp [wfV])
          (by simp [wfV]) hrel (by simp [pruneOpt, onequiv, nequiv])
      | dict es =>
        exact RelP_set t1 t2 k (.dict es) (.dict es) hw1 hw2 hv hv hrel
          (by simp [pruneOpt, onequiv, nequiv_dict_eq_dequiv, dequiv_refl])
      | list xs =>
        have h := RelP_elim t1 t2 hw1 hw2 hrel k
        rcases hg1 : alistGet t1 k with _ | w1 <;> rcases hg2 : alistGet t2 k with _ | w2
        · exact RelP_set t1 t2 k (.list xs) (.list xs) hw1 hw2 (by simp [wfV])
            (by simp [wfV]) hrel (by simp [pruneOpt, onequiv, nequiv, lequiv_refl])
        · rw [hg1, hg2] at h
          cases w2 <;> simp [pruneOpt, onequiv] at h
          exact RelP_set t1 t2 k (.list xs) (.list xs) hw1 hw2 (by simp [wfV])
            (by simp [wfV]) hrel (by simp [pruneOpt, onequiv, nequiv, lequiv_refl])
        · rw [hg1, hg2] at h
          cases w1 <;> simp [pruneOpt, onequiv] at h
          exact RelP_set t1 t2 k (.list xs) (.list xs) hw1 hw2 (by simp [wfV])
            (by simp [wfV]) hrel (by simp [pruneOpt, onequiv, nequiv, lequiv_refl])
        · rw [hg1, hg2] at h
          cases w1 <;> cases w2 <;> simp [pruneOpt, onequiv, nequiv] at h
          · -- both scalars: conflict on both sides with the same message
            exact rfl
          · -- both plain missing: fresh lists on both sides
            exact RelP_set t1 t2 k (.list xs) (.list xs) hw1 hw2 (by simp [wfV])
              (by simp [wfV]) hrel (by simp [pruneOpt, onequiv, nequiv, lequiv_refl])
          · -- both lists: append
            rename_i ys1 ys2
            exact RelP_set t1 t2 k (.list (ys1 ++ xs)) (.list (ys2 ++ xs)) hw1 hw2
              (by simp [wfV]) (by simp [wfV]) hrel
              (by simp [pruneOpt, onequiv, nequiv]; exact lequiv_append _ _ xs h)
          · -- both dicts: conflict on both sides with the same message
            exact rfl
    | cons r rs =>
      rw [mergeNodePath_cons, mergeNodePath_cons]
      obtain ⟨hsubrel, hsw1, hsw2⟩ := RelP_subOf t1 t2 k hw1 hw2 hrel
      have hIH := ih v (subOf t1 k) (subOf t2 k) hsw1 hsw2 hv hsubrel
      cases hm1 : mergeNodePath (subOf t1 k) (r :: rs) v with
      | error e1 =>
        cases hm2 : mergeNodePath (subOf t2 k) (r :: rs) v with
        | error e2 => exact rfl
        | ok s2 =>
          rw [hm1, hm2] at hIH
          exact hIH.elim
      | ok s1 =>
        cases hm2 : mergeNodePath (subOf t2 k) (r :: rs) v with
        | error e2 =>
          rw [hm1, hm2] at hIH
          exact hIH.elim
        | ok s2 =>
          rw [hm1, hm2] at hIH
          have hws1 := wfE_mergeNodePath _ _ _ _ hsw1 hv hm1
          have hws2 := wfE_mergeNodePath _ _ _ _ hsw2 hv hm2
          exact RelP_set t1 t2 k (.dict s1) (.dict s2) hw1 hw2
            (by simpa [wfV] using hws1) (by simpa [wfV] using hws2) hrel
            (by simp [pruneOpt, onequiv, nequiv_dict_eq_dequiv]; exact hIH)

/-- Folding one list of `(path, value)` pairs over two Python-`==`
accumulators fails with the same message on both or keeps them Python-`==`. -/
theorem sim_foldPairs (pairs : List (NodePath × Node)) :
    ∀ (t1 t2 : Entries), wfE t1 = true → wfE t2 = true →
      (∀ pv ∈ pairs, ∀ es, pv.2 ≠ Node.dict es) →
      RelP t1 t2 →
      exRel RelP (pairs.foldlM (fun t pv => mergeNodePath t pv.1 pv.2) t1)
        (pairs.foldlM (fun t pv => mergeNodePath t pv.1 pv.2) t2) := by
  induction pairs with
  | nil =>
    intro t1 t2 _ _ _ hrel
    exact hrel
  | cons pv rest ih =>
    intro t1 t2 hw1 hw2 hnd hrel
    have hwv : wfV pv.2 = true := by
      cases hv : pv.2 <;> simp [wfV]
      exact absurd hv (hnd pv (by simp) _)
    have hstep := sim_mergeNodePath pv.1 pv.2 t1 t2 hw1 hw2 hwv hrel
    rw [List.foldlM_cons, List.foldlM_cons]
    cases hm1 : mergeNodePath t1 pv.1 pv.2 with
    | error e1 =>
      cases hm2 : mergeNodePath t2 pv.1 pv.2 with
      | error e2 =>
        rw [hm1, hm2] at hstep
        rw [except_error_bind, except_error_bind]
        exact hstep
      | ok m2 =>
        rw [hm1, hm2] at hstep
        exact hstep.elim
    | ok m1 =>
      cases hm2 : mergeNodePath t2 pv.1 pv.2 with
      | error e2 =>
        rw [hm1, hm2] at hstep
        exact hstep.elim
      | ok m2 =>
        rw [hm1, hm2] at hstep
        rw [except_ok_bind, except_ok_bind]
        exact ih m1 m2 (wfE_mergeNodePath t1 pv.1 pv.2 m1 hw1 hwv hm1)
          (wfE_mergeNodePath t2 pv.1 pv.2 m2 hw2 hwv hm2)
          (fun qv hqv => hnd qv (by simp [hqv])) hstep

/-- Applying the same later layer to two Python-`==` accumulators fails with
the same message on both or keeps them Python-`==`. -/
theorem sim_applyLayer (L t1 t2 : Entries) (hw1 : wfE t1 = true)
    (hw2 : wfE t2 = true) (hrel : RelP t1 t2) :
    exRel RelP (applyLayer t1 L) (applyLayer t2 L) :=
  sim_foldPairs (visitDict L) t1 t2 hw1 hw2
    (fun pv hpv => visitDict_val_nondict L pv hpv) hrel

/-- `[C].foldlM applyLayer m` is `applyLayer m C` itself. -/
theorem foldlM_applyLayer_single (m C : Entries) :
    [C].foldlM applyLayer m = applyLayer m C := by
  rw [List.foldlM_cons]
  cases h : applyLayer m C with
  | error e => rw [except_error_bind]
  | ok c => rw [except_ok_bind]; rfl

/-- C4: for well-formed generic-tree layers, merging `[A, B, C]` yields the
same tree - Python `==`, so mapping key order is immaterial - as merging
`[A, B]` first and then merging its result with `C`; if either route raises
the type-conflict error, both raise it with the same message. -/
theorem c4_merge_associative (A B C : Entries)
    (hwA : wfE A = true) (hwB : wfE B = true) (hwC : wfE C = true) :
    exRel (fun a b => dequiv a b = true)
      (merge_layers [A, B, C])
      (merge_layers [A, B] >>= fun ab => merge_layers [ab, C]) := by
  rw [merge_layers_cons, merge_layers_cons]
  rw [List.foldlM_cons, List.foldlM_cons]
  cases hab : applyLayer A B with
  | error e =>
    rw [except_error_bind, except_error_bind]
    rw [show ((match (Except.error e : Except String Entries) with
      | .ok c => Except.ok (pruneMissing c)
      | .error e => Except.error e) : Except String Entries) = Except.error e from rfl]
    rw [except_error_bind]
    exact rfl
  | ok ab =>
    rw [except_ok_bind, except_ok_bind]
    rw [show (([] : List Entries).foldlM applyLayer ab) = Except.ok ab from rfl]
    rw [show ((match (Except.ok ab : Except String Entries) with
      | .ok c => Except.ok (pruneMissing c)
      | .error e => Except.error e) : Except String Entries) =
      Except.ok (pruneMissing ab) from rfl]
    rw [except_ok_bind, merge_layers_cons, foldlM_applyLayer_single,
      foldlM_applyLayer_single]
    have hwab := wfE_applyLayer A B ab hwA hab
    have hsim := sim_applyLayer C ab (pruneMissing ab) hwab (wfE_prune ab hwab)
      (RelP_prune ab)
    cases hm1 : applyLayer ab C with
    | error e1 =>
      cases hm2 : applyLayer (pruneMissing ab) C with
      | error e2 =>
        rw [hm1, hm2] at hsim
        exact hsim
      | ok c2 =>
        rw [hm1, hm2] at hsim
        exact hsim.elim
    | ok c1 =>
      cases hm2 : applyLayer (pruneMissing ab) C with
      | error e2 =>
        rw [hm1, hm2] at hsim
        exact hsim.elim
      | ok c2 =>
        rw [hm1, hm2] at hsim
        exact hsim

theorem c4_witness :
    exRel (fun a b => dequiv a b = true)
      (merge_layers
        [[("a", Node.scalar (Scal.int 1)), ("l", Node.list [Node.scalar (Scal.int 1)])],
         [("l", Node.list [Node.scalar (Scal.int 2)]), ("b", Node.missing)],
         [("a", Node.scalar (Scal.int 3))]])
      (merge_layers
        [[("a", Node.scalar (Scal.int 1)), ("l", Node.list [Node.scalar (Scal.int 1)])],
         [("l", Node.list [Node.scalar (Scal.int 2)]), ("b", Node.missing)]] >>=
        fun ab => merge_layers [ab, [("a", Node.scalar (Scal.int 3))]]) :=
  c4_merge_associative
    [("a", Node.scalar (Scal.int 1)), ("l", Node.list [Node.scalar (Scal.int 1)])]
    [("l", Node.list [Node.scalar (Scal.int 2)]), ("b", Node.missing)]
    [("a", Node.scalar (Scal.int 3))]
    (by simp [wfE, wfV, keyMemB]) (by simp [wfE, wfV, keyMemB])
    (by simp [wfE, wfV, keyMemB])

end Cfgman
